import Mathlib

/-!
# The proof-of-work ledger of `blockchain.go`, embedded in Lean

The development has three layers.

* `Sha256`, `Utf8`, `Float32`, `Json`: executable models of the Go library
  functions the ledger calls (`crypto/sha256.Sum256`, `encoding/json.Marshal`
  on the two `MarshalJSON` structs, `strconv` shortest float formatting,
  `fmt.Sprintf("%x", ...)`).
* `Transaction`, `Block`, `Blockchain` and the methods of `blockchain.go`, one
  Lean definition per Go function, under the Go names.
* The theorems about the ledger.

Conventions of the embedding.

* A Go `string` and a `[]byte` are lists of bytes (`List Nat`, every entry
  below 256); a `[32]byte` digest is a list of 32 bytes.
* A slice of transactions is `Option (List Transaction)`: `none` is the `nil`
  slice, `some []` the empty non-nil slice. The two differ in their JSON form
  (`null` against `[]`), hence in the hash of a block.
* The elements of such a slice are pointers in Go (`[]*Transaction`). The
  ledger is embedded on the transactions the pointers hold. `RawBlock` is the
  block with the pointers themselves and a memory beside it; `RawBlock.Hash`
  is `Hash` read at that level, and `RawBlock.load` takes a stored block to
  the `Block` it stands for.
* `time.Now().UnixNano()` is an input: every function that reads the clock
  takes the value read as the argument `now`.
* A Go `int` is a 64-bit two's complement integer (`wrapInt64`).
* A `float32` is its IEEE-754 binary32 word; arithmetic rounds to nearest,
  ties to even. Every NaN result is the one quiet NaN `0x7FC00000` (the
  payload of a NaN is hardware dependent and nothing here observes it).
* The unbounded loop of `ProofOfWork` takes a bound on the number of
  iterations (`fuel`); `none` is a run that does not return (it ran out of
  fuel or it panicked).
-/

set_option maxRecDepth 1000000
set_option maxHeartbeats 4000000

namespace GoBlockchain

/-! ## SHA-256 (`crypto/sha256`, FIPS 180-4)

Written for evaluation by the kernel: words are natural numbers below `2^32`,
the message and the sixteen-word schedule window are single big-endian
numbers, and `strict` forces a value before it is passed on. -/
namespace Sha256

/-- The sixty-four round constants (the first 32 bits of the fractional parts of the
cube roots of the first 64 primes), in decimal. -/
def K : List Nat := [
  1116352408, 1899447441, 3049323471, 3921009573, 961987163, 1508970993,
  2453635748, 2870763221, 3624381080, 310598401, 607225278, 1426881987,
  1925078388, 2162078206, 2614888103, 3248222580, 3835390401, 4022224774,
  264347078, 604807628, 770255983, 1249150122, 1555081692, 1996064986,
  2554220882, 2821834349, 2952996808, 3210313671, 3336571891, 3584528711,
  113926993, 338241895, 666307205, 773529912, 1294757372, 1396182291,
  1695183700, 1986661051, 2177026350, 2456956037, 2730485921, 2820302411,
  3259730800, 3345764771, 3516065817, 3600352804, 4094571909, 275423344,
  430227734, 506948616, 659060556, 883997877, 958139571, 1322822218,
  1537002063, 1747873779, 1955562222, 2024104815, 2227730452, 2361852424,
  2428436474, 2756734187, 3204031479, 3329325298]

/-- Evaluate `x` to a numeral, then continue with it. -/
def strict {α : Type} (x : Nat) (f : Nat → α) : α :=
  match x with
  | 0 => f 0
  | Nat.succ n => f (Nat.succ n)

/-- Rotate the 32-bit word `x` right by `n` bits: the low word of `x ‖ x` shifted by `n`. -/
def rotr (x n : Nat) : Nat :=
  Nat.mod (Nat.shiftRight (Nat.mul x 4294967297) n) 4294967296

/-- The function Σ0 of FIPS 180-4. -/
def bsig0 (x : Nat) : Nat := Nat.xor (Nat.xor (rotr x 2) (rotr x 13)) (rotr x 22)
/-- The function Σ1. -/
def bsig1 (x : Nat) : Nat := Nat.xor (Nat.xor (rotr x 6) (rotr x 11)) (rotr x 25)
/-- The function σ0. -/
def ssig0 (x : Nat) : Nat := Nat.xor (Nat.xor (rotr x 7) (rotr x 18)) (Nat.shiftRight x 3)
/-- The function σ1. -/
def ssig1 (x : Nat) : Nat := Nat.xor (Nat.xor (rotr x 17) (rotr x 19)) (Nat.shiftRight x 10)
/-- The choice function: bits of `y` where `x` is set, bits of `z` elsewhere. -/
def ch (x y z : Nat) : Nat := Nat.xor (Nat.land x y) (Nat.land (Nat.sub 4294967295 x) z)
/-- The majority function. -/
def maj (x y z : Nat) : Nat := Nat.xor (Nat.xor (Nat.land x y) (Nat.land x z)) (Nat.land y z)
/-- Addition modulo `2^32`. -/
def add32 (x y : Nat) : Nat := Nat.mod (Nat.add x y) 4294967296

/-- The eight working words. -/
structure St where
  a : Nat
  b : Nat
  c : Nat
  d : Nat
  e : Nat
  f : Nat
  g : Nat
  h : Nat
deriving DecidableEq, Repr

/-- The initial hash value. -/
def H0 : St :=
  ⟨1779033703, 3144134277, 1013904242, 2773480762,
   1359893119, 2600822924, 528734635, 1541459225⟩

/-- One round with constant `k` and schedule word `w`. -/
def round (s : St) (k w : Nat) : St :=
  match s with
  | ⟨a, b, c, d, e, f, g, h⟩ =>
    strict (add32 (add32 (add32 (add32 h (bsig1 e)) (ch e f g)) k) w) fun t1 =>
    strict (add32 (add32 (bsig0 a) (maj a b c)) t1) fun a2 =>
    strict (add32 d t1) fun e2 =>
    ⟨a2, a, b, c, e2, e, f, g⟩

/-- The window `W[t..t+15]` as one number below `2^512`, `W[t]` on top. The next
window drops `W[t]` and takes in `W[t+16] = σ1 W[t+14] + W[t+9] + σ0 W[t+1] + W[t]`. -/
def nextWin (win : Nat) : Nat :=
  Nat.add (Nat.mul (Nat.mod win (Nat.shiftLeft 1 480)) 4294967296)
    (add32 (add32 (add32 (ssig1 (Nat.mod (Nat.shiftRight win 32) 4294967296))
      (Nat.mod (Nat.shiftRight win 192) 4294967296))
      (ssig0 (Nat.mod (Nat.shiftRight win 448) 4294967296)))
      (Nat.shiftRight win 480))

/-- The rounds, one per constant, each consuming the top word of the window. -/
def rounds : List Nat → Nat → St → St
  | [], _, s => s
  | k :: ks, win, s =>
    strict (nextWin win) fun win2 => rounds ks win2 (round s k (Nat.shiftRight win 480))

/-- The compression function on one 512-bit block. -/
def compress (s : St) (blk : Nat) : St :=
  match rounds K blk s, s with
  | ⟨a, b, c, d, e, f, g, h⟩, ⟨a0, b0, c0, d0, e0, f0, g0, h0⟩ =>
    strict (add32 a0 a) fun a => strict (add32 b0 b) fun b =>
    strict (add32 c0 c) fun c => strict (add32 d0 d) fun d =>
    strict (add32 e0 e) fun e => strict (add32 f0 f) fun f =>
    strict (add32 g0 g) fun g => strict (add32 h0 h) fun h =>
    ⟨a, b, c, d, e, f, g, h⟩

/-- The big-endian value of a byte string, after the bytes already in `acc`. -/
def ofBytes : List Nat → Nat → Nat
  | [], acc => acc
  | b :: bs, acc => strict (Nat.add (Nat.mul acc 256) (Nat.mod b 256)) fun acc2 => ofBytes bs acc2

/-- Compress the `n` blocks of the padded message `m`, first block first. -/
def blocks : Nat → St → Nat → St
  | 0, s, _ => s
  | n + 1, s, m =>
    blocks n (compress s (Nat.mod (Nat.shiftRight m (Nat.mul 512 n)) (Nat.shiftLeft 1 512))) m

/-- The four bytes of a word, most significant first. -/
def wordBytes (x : Nat) : List Nat :=
  [Nat.mod (Nat.shiftRight x 24) 256, Nat.mod (Nat.shiftRight x 16) 256,
   Nat.mod (Nat.shiftRight x 8) 256, Nat.mod x 256]

/-- The digest of a message: `sha256.Sum256`. The message is padded with the byte
`0x80`, `z` zero bytes and its length in bits as a 64-bit number. -/
def sum256 (msg : List Nat) : List Nat :=
  let l := msg.length
  let z := (119 - l % 64) % 64
  let p := Nat.add (Nat.shiftLeft (Nat.add (Nat.mul (ofBytes msg 0) 256) 128) (8 * (z + 8))) (l * 8)
  match blocks ((l + z + 9) / 64) H0 p with
  | ⟨a, b, c, d, e, f, g, h⟩ =>
    wordBytes a ++ wordBytes b ++ wordBytes c ++ wordBytes d ++
    wordBytes e ++ wordBytes f ++ wordBytes g ++ wordBytes h

end Sha256

/-! ## Go values -/

/-- A Go `string` or `[]byte`: its bytes. -/
abbrev Bytes := List Nat

/-- The bytes of an ASCII literal. -/
def ascii (s : String) : Bytes := s.toList.map Char.toNat

/-- Decimal digits of `n`, most significant first, in front of `acc`; `fuel` bounds
the number of digits. -/
def decDigits : Nat → Nat → Bytes → Bytes
  | 0, _, acc => acc
  | fuel + 1, n, acc =>
    if n < 10 then (48 + n) :: acc else decDigits fuel (n / 10) ((48 + n % 10) :: acc)

/-- The decimal form of a natural number (`strconv.AppendUint`, base 10). -/
def natDec (n : Nat) : Bytes := decDigits (n + 1) n []

/-- The position of the highest set bit of `m` (0 for 0 and 1), by at most `fuel`
halvings. -/
def log2Loop : Nat → Nat → Nat
  | 0, _ => 0
  | fuel + 1, m => if m < 2 then 0 else log2Loop fuel (m / 2) + 1

/-- The decimal form of an integer (`strconv.AppendInt`, base 10). -/
def intDec (i : Int) : Bytes :=
  if i < 0 then 45 :: natDec i.natAbs else natDec i.natAbs

/-- The lower-case hexadecimal digit of a value below 16. -/
def hexDigit (n : Nat) : Nat := if n < 10 then 48 + n else 87 + n

/-- The text of `fmt.Sprintf("%x", b)` for a byte array: two lower-case digits a
byte, high nibble first. -/
def hexString : Bytes → Bytes
  | [] => []
  | b :: bs => hexDigit (b / 16 % 16) :: hexDigit (b % 16) :: hexString bs

/-- The value of a 64-bit two's complement integer after an arithmetic result `x`. -/
def wrapInt64 (x : Int) : Int := (x + 9223372036854775808) % 18446744073709551616 - 9223372036854775808

/-! ## IEEE-754 binary32 -/

/-- A `float32`, as its 32-bit word: sign, eight exponent bits, 23 fraction bits. -/
structure Float32 where
  bits : Nat
deriving DecidableEq, Repr

namespace Float32

/-- The sign bit. -/
def signBit (x : Float32) : Nat := x.bits / 2147483648 % 2
/-- The biased exponent field. -/
def expo (x : Float32) : Nat := x.bits / 8388608 % 256
/-- The fraction field. -/
def frac (x : Float32) : Nat := x.bits % 8388608
/-- The word without its sign bit. -/
def absBits (x : Float32) : Nat := x.bits % 2147483648
/-- Not a number. -/
def isNaN (x : Float32) : Bool := x.expo == 255 && x.frac != 0
/-- An infinity. -/
def isInf (x : Float32) : Bool := x.expo == 255 && x.frac == 0
/-- The quiet NaN that stands for every NaN result. -/
def nan : Float32 := ⟨0x7FC00000⟩
/-- The infinity of a sign. -/
def inf (sign : Nat) : Float32 := ⟨sign % 2 * 2147483648 + 0x7F800000⟩
/-- Negation: the sign bit flipped. -/
def neg (x : Float32) : Float32 := ⟨(x.bits + 2147483648) % 4294967296⟩

/-- The magnitude of a finite value, in units of `2^-149` (an integer: the
smallest positive `float32` is one unit). -/
def mag (x : Float32) : Nat :=
  if x.expo = 0 then x.frac else (8388608 + x.frac) * 2 ^ (x.expo - 1)

/-- The finite value in units of `2^-149`. -/
def toScaled (x : Float32) : Int :=
  if x.signBit = 1 then - (x.mag : Int) else (x.mag : Int)

/-- Round a magnitude given in units of `2^-149` to the nearest `float32`, ties to
even; the result is the word without sign (the exponent field takes the carry of
a mantissa that rounds up to `2^24`, and `0x7F800000` is the infinity). -/
def roundMag (m : Nat) : Nat :=
  let shift := log2Loop m m - 23
  let q := m / 2 ^ shift
  let r := m % 2 ^ shift
  let up := if 2 ^ shift < 2 * r ∨ (2 * r = 2 ^ shift ∧ q % 2 = 1) then 1 else 0
  min (shift * 8388608 + q + up) 0x7F800000

/-- Addition of `float32` values. -/
def add (x y : Float32) : Float32 :=
  if x.isNaN || y.isNaN then nan
  else if x.isInf then (if y.isInf && x.signBit != y.signBit then nan else inf x.signBit)
  else if y.isInf then inf y.signBit
  else
    let s := x.toScaled + y.toScaled
    if s = 0 then (if x.signBit = 1 ∧ y.signBit = 1 then ⟨2147483648⟩ else ⟨0⟩)
    else if s < 0 then ⟨2147483648 + roundMag s.natAbs⟩
    else ⟨roundMag s.natAbs⟩

/-- Subtraction of `float32` values. -/
def sub (x y : Float32) : Float32 := add x (neg y)

end Float32

/-! ## Shortest decimal form of a `float32` (`strconv.AppendFloat(_, f, fmt, -1, 32)`) -/
namespace Strconv

/-- Scale of a decimal `d * 10^k` against a binary magnitude in units of `2^-151`:
`d * 10^k` compares with `n * 2^-151` as `d * scaleD k` with `n * scaleN k`. -/
def scaleD (k : Int) : Nat := if 0 ≤ k then 2 ^ 151 * 10 ^ k.toNat else 2 ^ 151
/-- See `scaleD`. -/
def scaleN (k : Int) : Nat := if 0 ≤ k then 1 else 10 ^ (-k).toNat

/-- The largest `p` at most the start value with `10^p ≤ v`, for `v` units of `2^-151`. -/
def exp10 : Nat → Int → Nat → Int
  | 0, p, _ => p
  | fuel + 1, p, v => if scaleD p ≤ v * scaleN p then p else exp10 fuel (p - 1) v

/-- The shortest digits: with `lo`, `v`, `hi` in units of `2^-151` the bounds of the
decimals that read back as `v` (taken in when `incl`), the first number of digits
`n` for which one of the two `n`-digit decimals around `v` lies within the bounds;
of two, the nearer to `v`. The result is `(d, k)` for the decimal `d * 10^k`. -/
def shortestLoop (lo v hi : Nat) (incl : Bool) (p : Int) : Nat → Nat → Nat × Int
  | 0, n => (v * scaleN (p - n + 1) / scaleD (p - n + 1), p - n + 1)
  | fuel + 1, n =>
    let k : Int := p - n + 1
    let cD := scaleD k
    let cN := scaleN k
    let dl := v * cN / cD
    let okdown := if incl then decide (lo * cN ≤ dl * cD) else decide (lo * cN < dl * cD)
    let okup := if incl then decide ((dl + 1) * cD ≤ hi * cN) else decide ((dl + 1) * cD < hi * cN)
    if okdown && okup then
      (if 2 * v * cN < (2 * dl + 1) * cD then (dl, k)
       else if (2 * dl + 1) * cD < 2 * v * cN then (dl + 1, k)
       else if dl % 2 = 0 then (dl, k) else (dl + 1, k))
    else if okdown then (dl, k)
    else if okup then (dl + 1, k)
    else shortestLoop lo v hi incl p fuel (n + 1)

/-- Drop the zeros at the end of `d`, counting them into the exponent. -/
def trimZeros : Nat → Nat → Int → Nat × Int
  | 0, d, k => (d, k)
  | fuel + 1, d, k => if d ≠ 0 ∧ d % 10 = 0 then trimZeros fuel (d / 10) (k + 1) else (d, k)

/-- The shortest decimal that reads back as the finite `x`: its digits and the
position `dp` of the decimal point, the value being `0.d₁d₂… * 10^dp`. Zero has no
digits. -/
def shortest (x : Float32) : Bytes × Int :=
  if x.mag = 0 then ([], 0) else
  let e := if x.expo = 0 then 1 else x.expo
  let half := 2 * 2 ^ (e - 1)
  let v := 4 * x.mag
  let lo := if x.frac = 0 ∧ 1 < e then v - half / 2 else v - half
  let r := shortestLoop lo v (v + half) (x.frac % 2 == 0) (exp10 100 38 v) 20 1
  let t := trimZeros 20 r.1 r.2
  let ds := natDec t.1
  (ds, t.2 + ds.length)

/-- The format `%e` with the shortest digits (`fmtE` with `prec = nd - 1`). -/
def fmtE (neg : Bool) (ds : Bytes) (dp : Int) : Bytes :=
  let exp : Int := if ds.length = 0 then 0 else dp - 1
  let ex := exp.natAbs
  (if neg then [45] else []) ++ [ds.headD 48] ++
  (if 1 < ds.length then 46 :: ds.tail else []) ++
  [101, if exp < 0 then 45 else 43] ++
  (if ex < 10 then [48, 48 + ex] else if ex < 100 then [48 + ex / 10, 48 + ex % 10]
   else [48 + ex / 100, 48 + ex / 10 % 10, 48 + ex % 10])

/-- The format `%f` with the shortest digits (`fmtF` with `prec = max (nd - dp) 0`). -/
def fmtF (neg : Bool) (ds : Bytes) (dp : Int) : Bytes :=
  let intPart := if 0 < dp then ds.take dp.toNat ++ List.replicate (dp.toNat - ds.length) 48 else [48]
  let prec := ((ds.length : Int) - dp).toNat
  let fracPart :=
    if 0 < prec then 46 :: (List.replicate (-dp).toNat 48 ++ ds.drop dp.toNat) else []
  (if neg then [45] else []) ++ intPart ++ fracPart

end Strconv

/-! ## UTF-8 decoding, as far as `encoding/json` needs it -/
namespace Utf8

/-- For a leading byte of a multi-byte encoding: the size of the encoding and the
range of its second byte (the tables `first` and `acceptRanges` of `unicode/utf8`).
Any other byte at or above `0x80` starts no encoding. -/
def first (b : Nat) : Option (Nat × Nat × Nat) :=
  if 0xC2 ≤ b ∧ b ≤ 0xDF then some (2, 0x80, 0xBF)
  else if b = 0xE0 then some (3, 0xA0, 0xBF)
  else if b = 0xED then some (3, 0x80, 0x9F)
  else if 0xE1 ≤ b ∧ b ≤ 0xEF then some (3, 0x80, 0xBF)
  else if b = 0xF0 then some (4, 0x90, 0xBF)
  else if 0xF1 ≤ b ∧ b ≤ 0xF3 then some (4, 0x80, 0xBF)
  else if b = 0xF4 then some (4, 0x80, 0x8F)
  else none

/-- The size `utf8.DecodeRuneInString` reports for a string that starts with a byte
at or above `0x80`: 2, 3 or 4 for a valid encoding, and 0 here for the answer
`(RuneError, 1)` of an invalid one. -/
def decodeSize (s : Bytes) : Nat :=
  match s with
  | [] => 0
  | b0 :: rest =>
    match first b0 with
    | none => 0
    | some (sz, lo, hi) =>
      if rest.length + 1 < sz then 0 else
      match rest with
      | [] => 0
      | b1 :: r1 =>
        if b1 < lo ∨ hi < b1 then 0 else if sz ≤ 2 then 2 else
        match r1 with
        | [] => 0
        | b2 :: r2 =>
          if b2 < 0x80 ∨ 0xBF < b2 then 0 else if sz ≤ 3 then 3 else
          match r2 with
          | [] => 0
          | b3 :: _ => if b3 < 0x80 ∨ 0xBF < b3 then 0 else 4

end Utf8

/-! ## `encoding/json` on the values the ledger marshals -/
namespace Json

/-- Concatenation of the pieces of an encoding. -/
def cat : List Bytes → Bytes
  | [] => []
  | x :: xs => x ++ cat xs

/-- The encoding of one byte below `0x80` inside a string, HTML characters escaped. -/
def escapeAscii (b : Nat) : Bytes :=
  if 0x20 ≤ b ∧ b ≠ 34 ∧ b ≠ 92 ∧ b ≠ 60 ∧ b ≠ 62 ∧ b ≠ 38 then [b]
  else if b = 92 ∨ b = 34 then [92, b]
  else if b = 8 then [92, 98]
  else if b = 12 then [92, 102]
  else if b = 10 then [92, 110]
  else if b = 13 then [92, 114]
  else if b = 9 then [92, 116]
  else [92, 117, 48, 48, hexDigit (b / 16), hexDigit (b % 16)]

/-- The characters of a string between the quotes (`appendString` with
`escapeHTML`): ASCII through `escapeAscii`, an invalid byte as the escape of U+FFFD, the
separators U+2028 and U+2029 escaped, every other encoding copied. -/
def stringBody : Nat → Bytes → Bytes
  | 0, _ => []
  | _, [] => []
  | fuel + 1, b :: rest =>
    if b < 0x80 then escapeAscii b ++ stringBody fuel rest
    else
      match Utf8.decodeSize (b :: rest) with
      | 0 => [92, 117, 102, 102, 102, 100] ++ stringBody fuel rest
      | sz =>
        if b = 0xE2 ∧ rest.take 2 = [0x80, 0xA8] then
          [92, 117, 50, 48, 50, 56] ++ stringBody fuel (rest.drop 2)
        else if b = 0xE2 ∧ rest.take 2 = [0x80, 0xA9] then
          [92, 117, 50, 48, 50, 57] ++ stringBody fuel (rest.drop 2)
        else (b :: rest).take sz ++ stringBody fuel (rest.drop (sz - 1))

/-- A string value. -/
def string (s : Bytes) : Bytes := 34 :: (stringBody s.length s ++ [34])

/-- The elements of an array, separated by commas. -/
def commaSep : List Bytes → Bytes
  | [] => []
  | [x] => x
  | x :: y :: xs => x ++ 44 :: commaSep (y :: xs)

/-- An array value. -/
def array (xs : List Bytes) : Bytes := 91 :: (commaSep xs ++ [93])

/-- A `float32` value (`floatEncoder`): an error for NaN and the infinities; else
the shortest digits, in the format `%e` below `1e-6` and from `1e21` on (both
taken as `float32`) with a two-digit exponent `e-09` cut to `e-9`, and in the
format `%f` otherwise. -/
def float32 (x : Float32) : Option Bytes :=
  if x.isNaN || x.isInf then none else
  let neg := x.signBit == 1
  let a := x.absBits
  let d := Strconv.shortest x
  if a ≠ 0 ∧ (a < 0x358637BD ∨ 0x6258D727 ≤ a) then
    let b := Strconv.fmtE neg d.1 d.2
    let n := b.length
    if 4 ≤ n ∧ b.getD (n - 4) 0 = 101 ∧ (b.getD (n - 3) 0 = 45 ∨ b.getD (n - 3) 0 = 43)
        ∧ b.getD (n - 2) 0 = 48 then
      some (b.take (n - 2) ++ b.drop (n - 1))
    else some b
  else some (Strconv.fmtF neg d.1 d.2)

/-- Every element of a list of results, or the error of one of them. -/
def allOk : List (Option Bytes) → Option (List Bytes)
  | [] => some []
  | none :: _ => none
  | some x :: xs =>
    match allOk xs with
    | none => none
    | some ys => some (x :: ys)

end Json

/-! ## The ledger of `blockchain.go` -/

/-- The constant `MINING_DIFFICULTY`. -/
def MINING_DIFFICULTY : Int := 3
/-- The constant `MINING_SENDER`. -/
def MINING_SENDER : Bytes := ascii "THE BLOCKCHAIN"
/-- The constant `MINING_REWARD`, the `float32` 1.0. -/
def MINING_REWARD : Float32 := ⟨0x3F800000⟩

/-- The struct `Transaction`. -/
structure Transaction where
  senderAddress : Bytes
  recipientAddress : Bytes
  value : Float32
deriving DecidableEq, Repr

/-- The elements of a slice of transactions: none for the `nil` slice. -/
def txList (s : Option (List Transaction)) : List Transaction := s.getD []

/-- The struct `Block`. -/
structure Block where
  timestamp : Int
  nonce : Int
  prevHash : Bytes
  transactions : Option (List Transaction)
deriving DecidableEq, Repr

/-- The struct `Blockchain`. -/
structure Blockchain where
  transactionPool : Option (List Transaction)
  chain : List Block
  blockchainAddress : Bytes
deriving DecidableEq, Repr

/-- The function `NewTransaction`. -/
def NewTransaction (sender recipient : Bytes) (value : Float32) : Transaction :=
  { senderAddress := sender, recipientAddress := recipient, value := value }

/-- The method `Transaction.MarshalJSON`: the object with the keys `senderAddress`,
`recipientAddress`, `value` in this order; an error when the value has no JSON form. -/
def Transaction.MarshalJSON (t : Transaction) : Option Bytes :=
  match Json.float32 t.value with
  | none => none
  | some v =>
    some (Json.cat [ascii "\x7b\"senderAddress\":", Json.string t.senderAddress,
      ascii ",\"recipientAddress\":", Json.string t.recipientAddress,
      ascii ",\"value\":", v, ascii "\x7d"])

/-- The JSON form of a slice of transactions: `null` for the `nil` slice, else the
array of the elements, each through its `MarshalJSON`. -/
def marshalTransactions : Option (List Transaction) → Option Bytes
  | none => some (ascii "null")
  | some ts =>
    match Json.allOk (ts.map Transaction.MarshalJSON) with
    | none => none
    | some xs => some (Json.array xs)

/-- The method `Block.MarshalJSON`: the object with the keys `nonce`, `prevHash`
(a `[32]byte`, hence an array of numbers), `timestamp`, `transactions` in this order. -/
def Block.MarshalJSON (b : Block) : Option Bytes :=
  match marshalTransactions b.transactions with
  | none => none
  | some ts =>
    some (Json.cat [ascii "\x7b\"nonce\":", intDec b.nonce,
      ascii ",\"prevHash\":", Json.array (b.prevHash.map natDec),
      ascii ",\"timestamp\":", intDec b.timestamp,
      ascii ",\"transactions\":", ts, ascii "\x7d"])

/-- The method `Block.Hash`. The error of `json.Marshal` is dropped: a block
without JSON form is hashed as the empty byte string. -/
def Block.Hash (b : Block) : Bytes :=
  Sha256.sum256 (b.MarshalJSON.getD [])

/-- The function `newBlock`; `now` is the value of `time.Now().UnixNano()`. -/
def newBlock (now : Int) (nonce : Int) (previousHash : Bytes)
    (transactions : Option (List Transaction)) : Block :=
  { timestamp := now, nonce := nonce, prevHash := previousHash, transactions := transactions }

/-- The method `createBlock`: the new block and the ledger after the call. -/
def createBlock (bc : Blockchain) (now : Int) (nonce : Int) (previousHash : Bytes) :
    Block × Blockchain :=
  let b := newBlock now nonce previousHash bc.transactionPool
  (b, { bc with chain := bc.chain ++ [b], transactionPool := some [] })

/-- The zero value `Block{}`. -/
def zeroBlock : Block :=
  { timestamp := 0, nonce := 0, prevHash := List.replicate 32 0, transactions := none }

/-- The function `newBlockchain`. -/
def newBlockchain (blockchainAddress : Bytes) (now : Int) : Blockchain :=
  let b := zeroBlock
  let bc : Blockchain :=
    { transactionPool := none, chain := [], blockchainAddress := blockchainAddress }
  (createBlock bc now 0 b.Hash).2

/-- The method `LastBlock`: the element at index `len(chain)-1`; `none` is the
panic of an index out of range. -/
def LastBlock (bn : Blockchain) : Option Block :=
  if bn.chain.length = 0 then none else bn.chain.get? (bn.chain.length - 1)

/-- The method `addTransaction`. -/
def addTransaction (bc : Blockchain) (sender recipient : Bytes) (value : Float32) : Blockchain :=
  let t := NewTransaction sender recipient value
  { bc with transactionPool := some (txList bc.transactionPool ++ [t]) }

/-- The method `CopyTransactionPool`: the copy and the ledger after the call. -/
def CopyTransactionPool (bc : Blockchain) : Option (List Transaction) × Blockchain :=
  (some ((txList bc.transactionPool).map fun t =>
      NewTransaction t.senderAddress t.recipientAddress t.value), bc)

/-- The candidate block of `ValidProof`: `Block{0, nonce, previousHash, transactions}`. -/
def guessBlock (nonce : Int) (previousHash : Bytes)
    (transactions : Option (List Transaction)) : Block :=
  { timestamp := 0, nonce := nonce, prevHash := previousHash, transactions := transactions }

/-- The method `ValidProof` (its receiver is not used). `none` is a panic:
`strings.Repeat` on a negative count, or the slice `guessHashStr[:difficulty]` out
of range. -/
def ValidProof (nonce : Int) (previousHash : Bytes) (transactions : Option (List Transaction))
    (difficulty : Int) : Option Bool :=
  if difficulty < 0 then none else
  let zeros := List.replicate difficulty.toNat 48
  let guessHashStr := hexString (guessBlock nonce previousHash transactions).Hash
  if guessHashStr.length < difficulty.toNat then none
  else some (decide (guessHashStr.take difficulty.toNat = zeros))

/-- The loop of `ProofOfWork` from the value `nonce`, at most `fuel` tests. -/
def powLoop (previousHash : Bytes) (transactions : Option (List Transaction)) :
    Nat → Int → Option Int
  | 0, _ => none
  | fuel + 1, nonce =>
    match ValidProof nonce previousHash transactions MINING_DIFFICULTY with
    | none => none
    | some true => some nonce
    | some false => powLoop previousHash transactions fuel (wrapInt64 (nonce + 1))

/-- The method `ProofOfWork`, its loop bounded by `fuel`: the nonce and the ledger
after the call. -/
def ProofOfWork (fuel : Nat) (bc : Blockchain) : Option (Int × Blockchain) :=
  let (transactions, bc1) := CopyTransactionPool bc
  match LastBlock bc1 with
  | none => none
  | some last =>
    match powLoop last.Hash transactions fuel 0 with
    | none => none
    | some nonce => some (nonce, bc1)

/-- The method `Mining`: the result and the ledger after the call (the log line is
not modelled). -/
def Mining (now : Int) (fuel : Nat) (bc : Blockchain) : Option (Bool × Blockchain) :=
  let bc1 := addTransaction bc MINING_SENDER bc.blockchainAddress MINING_REWARD
  match ProofOfWork fuel bc1 with
  | none => none
  | some (nonce, bc2) =>
    match LastBlock bc2 with
    | none => none
    | some last =>
      let previousHash := last.Hash
      some (true, (createBlock bc2 now nonce previousHash).2)

/-- The body of the inner loop of `CalculateTotalAmount` for one transaction. -/
def tally (blockchainAddress : Bytes) (totalValue : Float32) (t : Transaction) : Float32 :=
  let value := t.value
  let total1 := if blockchainAddress = t.recipientAddress then totalValue.add value else totalValue
  if blockchainAddress = t.senderAddress then total1.sub value else total1

/-- The method `CalculateTotalAmount`. -/
def CalculateTotalAmount (bc : Blockchain) (blockchainAddress : Bytes) : Float32 :=
  bc.chain.foldl
    (fun totalValue b => (txList b.transactions).foldl (tally blockchainAddress) totalValue)
    ⟨0⟩

/-! ## Blocks as the program stores them

The field `transactions` of a `Block` is a `[]*Transaction`. `json.Marshal` follows
each pointer and calls the method `MarshalJSON` of the transaction it holds. -/

/-- The address of a `Transaction` value: what a `*Transaction` holds. -/
abbrev Ptr := Nat

/-- The memory of the program: the `Transaction` value at each address. -/
abbrev Heap := Ptr → Transaction

/-- The struct `Block` as the program stores it: the field `transactions` is a slice
of pointers, `[]*Transaction` (`none` is the `nil` slice). -/
structure RawBlock where
  timestamp : Int
  nonce : Int
  prevHash : Bytes
  transactions : Option (List Ptr)
deriving DecidableEq, Repr

/-- The JSON form of a `[]*Transaction`: `null` for the `nil` slice, else the array of
the elements in slice order, each through the method `MarshalJSON` of the
transaction its pointer holds. -/
def marshalPointers (m : Heap) : Option (List Ptr) → Option Bytes
  | none => some (ascii "null")
  | some ps =>
    match Json.allOk (ps.map fun p => (m p).MarshalJSON) with
    | none => none
    | some xs => some (Json.array xs)

/-- The method `Block.MarshalJSON` on the stored block. -/
def RawBlock.MarshalJSON (m : Heap) (b : RawBlock) : Option Bytes :=
  match marshalPointers m b.transactions with
  | none => none
  | some ts =>
    some (Json.cat [ascii "\x7b\"nonce\":", intDec b.nonce,
      ascii ",\"prevHash\":", Json.array (b.prevHash.map natDec),
      ascii ",\"timestamp\":", intDec b.timestamp,
      ascii ",\"transactions\":", ts, ascii "\x7d"])

/-- The method `Block.Hash` on the stored block. -/
def RawBlock.Hash (m : Heap) (b : RawBlock) : Bytes :=
  Sha256.sum256 ((b.MarshalJSON m).getD [])

/-- A call of one of the two mutating methods of a ledger: `addTransaction`, or
`Mining` with the clock value it reads and a bound on its search. -/
inductive Call where
  | add (sender recipient : Bytes) (value : Float32)
  | mine (now : Int) (fuel : Nat)
deriving DecidableEq, Repr

/-- The ledger after a call; `none` when the call does not return. -/
def step (bc : Blockchain) : Call → Option Blockchain
  | Call.add sender recipient value => some (addTransaction bc sender recipient value)
  | Call.mine now fuel => (Mining now fuel bc).map Prod.snd

/-- The ledger after a sequence of calls, each of which returns. -/
def run (bc : Blockchain) : List Call → Option Blockchain
  | [] => some bc
  | c :: cs =>
    match step bc c with
    | none => none
    | some bc1 => run bc1 cs

/-! ## Derived notions used in the statements -/

/-- The ledger after the calls `addTransaction(t.sender, t.recipient, t.value)` for
the transactions `t` of a list, in order. -/
def addAll (bc : Blockchain) (ts : List Transaction) : Blockchain :=
  ts.foldl (fun b t => addTransaction b t.senderAddress t.recipientAddress t.value) bc

/-- Every block of the chain but the first carries the hash of the block before it. -/
def Linked (bc : Blockchain) : Prop :=
  List.Chain' (fun a b : Block => b.prevHash = a.Hash) bc.chain

/-- The proof-of-work seal of a block: `ValidProof` accepts its nonce against its
previous hash and its transactions. -/
def Sealed (b : Block) : Prop :=
  ValidProof b.nonce b.prevHash b.transactions MINING_DIFFICULTY = some true

/-- A finite `float32`: neither NaN nor an infinity. -/
def Float32.isFinite (x : Float32) : Bool := x.expo != 255

/-- The `float32` sum of a list of amounts, taken from the left, starting at `+0`. -/
def Float32.sum (vs : List Float32) : Float32 := vs.foldl Float32.add ⟨0⟩

/-- On the grid of step `2^j` units: a finite value whose magnitude is a multiple of
`2^j` units of `2^-149`. -/
def Float32.Exact (j : Nat) (x : Float32) : Prop :=
  x.isFinite = true ∧ 2 ^ j ∣ x.mag

/-- Every committed transaction, in chain order. -/
def committed : List Block → List Transaction
  | [] => []
  | b :: bs => txList b.transactions ++ committed bs

/-- The amounts of the transactions of a list whose recipient is `a`, in order. -/
def received (a : Bytes) (ts : List Transaction) : List Float32 :=
  (ts.filter fun t => decide (a = t.recipientAddress)).map fun t => t.value

/-- The amounts of the transactions of a list whose sender is `a`, in order. -/
def sent (a : Bytes) (ts : List Transaction) : List Float32 :=
  (ts.filter fun t => decide (a = t.senderAddress)).map fun t => t.value

/-- The exact sum of finite amounts, in units of `2^-149`. -/
def exactSum (vs : List Float32) : Int := (vs.map Float32.toScaled).sum

/-- The magnitude a transaction moves through the account `a`, in units of `2^-149`:
its amount once as recipient and once as sender. -/
def weight (a : Bytes) (t : Transaction) : Nat :=
  (if a = t.recipientAddress then t.value.mag else 0) +
  (if a = t.senderAddress then t.value.mag else 0)

/-- The byte form of the difficulty test, in the words of the claim: the first byte
of the digest is 0 and the second is below 16. -/
def byteTest (h : Bytes) : Bool :=
  match h with
  | b0 :: b1 :: _ => decide (b0 = 0 ∧ b1 < 16)
  | _ => false

/-- Equal logical content, in the words of the claim: equal nonce, previous hash and
timestamp, transaction sequences of equal length, and transactions equal in sender,
recipient and amount position by position. -/
def SameContent (b1 b2 : Block) : Prop :=
  b1.nonce = b2.nonce ∧ b1.prevHash = b2.prevHash ∧ b1.timestamp = b2.timestamp ∧
  (txList b1.transactions).length = (txList b2.transactions).length ∧
  ∀ (i : Nat) (t1 t2 : Transaction),
    (txList b1.transactions).get? i = some t1 → (txList b2.transactions).get? i = some t2 →
    t1.senderAddress = t2.senderAddress ∧ t1.recipientAddress = t2.recipientAddress ∧
    t1.value = t2.value

/-- The reward transaction `Mining` appends on a ledger. -/
def rewardOf (bc : Blockchain) : Transaction :=
  NewTransaction MINING_SENDER bc.blockchainAddress MINING_REWARD

/-- The addresses the transactions of a list name, sender before recipient, with
repetitions. -/
def mentioned : List Transaction → List Bytes
  | [] => []
  | t :: ts => t.senderAddress :: t.recipientAddress :: mentioned ts

/-- The distinct addresses that are sender or recipient of a transaction of a list. -/
def addresses (ts : List Transaction) : List Bytes := (mentioned ts).dedup

/-- The sum of the magnitudes of the amounts of a list, in units of `2^-149`. -/
def volume (ts : List Transaction) : Nat := (ts.map fun t => t.value.mag).sum

/-- The exact net of the account `a` in one transaction, in units of `2^-149`. -/
def netOne (a : Bytes) (t : Transaction) : Int :=
  (if a = t.recipientAddress then t.value.toScaled else 0) -
  (if a = t.senderAddress then t.value.toScaled else 0)

/-- The exact net of the account `a` over a list of transactions. -/
def net (a : Bytes) (ts : List Transaction) : Int :=
  exactSum (received a ts) - exactSum (sent a ts)

/-- The owner of the example ledger. -/
def demoOwner : Bytes := ascii "addr1"

/-- The ledger `newBlockchain("addr1")` built at clock value 1700000000000008940. -/
def demoGenesis : Blockchain :=
  { transactionPool := some [],
    chain := [{ timestamp := 1700000000000008940, nonce := 0,
                prevHash := [200, 118, 208, 16, 7, 155, 85, 231, 38, 28, 61, 73, 203, 198, 151, 243,
                  111, 168, 51, 95, 177, 175, 101, 22, 229, 37, 122, 230, 186, 94, 225, 249],
                transactions := none }],
    blockchainAddress := demoOwner }

/-- The example ledger after `addTransaction("A", "B", 1.0)`. -/
def demoPending : Blockchain :=
  { demoGenesis with
    transactionPool :=
      some [{ senderAddress := ascii "A", recipientAddress := ascii "B", value := ⟨0x3F800000⟩ }] }

/-- The block the example ledger commits at clock value 1700000000000009999. -/
def demoBlock : Block :=
  { timestamp := 1700000000000009999, nonce := 2,
    prevHash := [117, 82, 171, 146, 4, 100, 68, 86, 182, 43, 51, 181, 246, 113, 242, 110,
      47, 187, 116, 180, 236, 76, 37, 23, 32, 188, 166, 119, 67, 1, 57, 25],
    transactions := some
      [{ senderAddress := ascii "A", recipientAddress := ascii "B", value := ⟨0x3F800000⟩ },
       { senderAddress := MINING_SENDER, recipientAddress := demoOwner, value := MINING_REWARD }] }

/-- The example ledger after `Mining`. -/
def demoMined : Blockchain :=
  { transactionPool := some [], chain := demoGenesis.chain ++ [demoBlock],
    blockchainAddress := demoOwner }

/-- The calls that lead from the fresh example ledger to `demoMined`. -/
def demoCalls : List Call :=
  [Call.add (ascii "A") (ascii "B") ⟨0x3F800000⟩, Call.mine 1700000000000009999 3]

/-- The ledger `newBlockchain("addr1")` built at clock value 1700000000000000707. -/
def roundingGenesis : Blockchain :=
  { transactionPool := some [],
    chain := [{ timestamp := 1700000000000000707, nonce := 0,
                prevHash := [200, 118, 208, 16, 7, 155, 85, 231, 38, 28, 61, 73, 203, 198, 151, 243,
                  111, 168, 51, 95, 177, 175, 101, 22, 229, 37, 122, 230, 186, 94, 225, 249],
                transactions := none }],
    blockchainAddress := demoOwner }

/-- Four transfers between "A" and "B": 16777216.0 and 1.0 to "B", 16777216.0 back to
"A", 1.0 to "B". -/
def roundingTransfers : List Transaction :=
  [{ senderAddress := ascii "A", recipientAddress := ascii "B", value := ⟨0x4B800000⟩ },
   { senderAddress := ascii "A", recipientAddress := ascii "B", value := ⟨0x3F800000⟩ },
   { senderAddress := ascii "B", recipientAddress := ascii "A", value := ⟨0x4B800000⟩ },
   { senderAddress := ascii "A", recipientAddress := ascii "B", value := ⟨0x3F800000⟩ }]

/-- The calls that submit `roundingTransfers` and then mine at clock value
1700000000000020000. -/
def roundingCalls : List Call :=
  [Call.add (ascii "A") (ascii "B") ⟨0x4B800000⟩, Call.add (ascii "A") (ascii "B") ⟨0x3F800000⟩,
   Call.add (ascii "B") (ascii "A") ⟨0x4B800000⟩, Call.add (ascii "A") (ascii "B") ⟨0x3F800000⟩,
   Call.mine 1700000000000020000 1]

/-- The ledger after `roundingCalls`. -/
def roundingMined : Blockchain :=
  { transactionPool := some [],
    chain := roundingGenesis.chain ++
      [{ timestamp := 1700000000000020000, nonce := 0,
         prevHash := [187, 10, 176, 172, 94, 107, 61, 160, 214, 190, 197, 52, 54, 117, 4, 84,
           164, 125, 193, 130, 197, 151, 5, 219, 94, 97, 79, 238, 15, 120, 38, 95],
         transactions := some (roundingTransfers ++
           [{ senderAddress := MINING_SENDER, recipientAddress := demoOwner,
              value := MINING_REWARD }]) }],
    blockchainAddress := demoOwner }

/-- The zero block with the empty, non-nil slice of transactions: the candidate block
`ValidProof` builds from `CopyTransactionPool` on an empty pool. -/
def emptyBlock : Block :=
  { timestamp := 0, nonce := 0, prevHash := List.replicate 32 0, transactions := some [] }

/-- The calls of the first half of the scenario: `addTransaction("A", "B", 1.0)`, then
`Mining`. -/
def scenarioCalls1 (now1 : Int) (fuel1 : Nat) : List Call :=
  [Call.add (ascii "A") (ascii "B") ⟨0x3F800000⟩, Call.mine now1 fuel1]

/-- The calls of the second half of the scenario: `addTransaction("C", "D", 10.0)`,
`addTransaction("F", "H", 5.7)`, then `Mining`. -/
def scenarioCalls2 (now2 : Int) (fuel2 : Nat) : List Call :=
  [Call.add (ascii "C") (ascii "D") ⟨0x41200000⟩, Call.add (ascii "F") (ascii "H") ⟨0x40B66666⟩,
   Call.mine now2 fuel2]

/-- The block the scenario commits first, at clock value 1700000000000009942. -/
def scenarioBlock1 : Block :=
  { timestamp := 1700000000000009942, nonce := 2,
    prevHash := [117, 82, 171, 146, 4, 100, 68, 86, 182, 43, 51, 181, 246, 113, 242, 110,
      47, 187, 116, 180, 236, 76, 37, 23, 32, 188, 166, 119, 67, 1, 57, 25],
    transactions := some
      [{ senderAddress := ascii "A", recipientAddress := ascii "B", value := ⟨0x3F800000⟩ },
       { senderAddress := MINING_SENDER, recipientAddress := demoOwner, value := MINING_REWARD }] }

/-- The ledger of the scenario after the first `Mining`. -/
def scenarioMined1 : Blockchain :=
  { transactionPool := some [], chain := demoGenesis.chain ++ [scenarioBlock1],
    blockchainAddress := demoOwner }

/-- The block the scenario commits second, at clock value 1700000000000014942. -/
def scenarioBlock2 : Block :=
  { timestamp := 1700000000000014942, nonce := 0,
    prevHash := [184, 186, 207, 132, 14, 242, 94, 76, 132, 141, 254, 130, 163, 65, 223, 94,
      145, 72, 245, 103, 202, 148, 21, 10, 141, 103, 56, 128, 64, 251, 166, 143],
    transactions := some
      [{ senderAddress := ascii "C", recipientAddress := ascii "D", value := ⟨0x41200000⟩ },
       { senderAddress := ascii "F", recipientAddress := ascii "H", value := ⟨0x40B66666⟩ },
       { senderAddress := MINING_SENDER, recipientAddress := demoOwner, value := MINING_REWARD }] }

/-- The ledger of the scenario after the second `Mining`. -/
def scenarioMined2 : Blockchain :=
  { transactionPool := some [], chain := scenarioMined1.chain ++ [scenarioBlock2],
    blockchainAddress := demoOwner }

/-- The ledger `newBlockchain("addr1")` built at clock value 1700000000000000888. -/
def stuckGenesis : Blockchain :=
  { transactionPool := some [],
    chain := [{ timestamp := 1700000000000000888, nonce := 0,
                prevHash := [200, 118, 208, 16, 7, 155, 85, 231, 38, 28, 61, 73, 203, 198, 151, 243,
                  111, 168, 51, 95, 177, 175, 101, 22, 229, 37, 122, 230, 186, 94, 225, 249],
                transactions := none }],
    blockchainAddress := demoOwner }

/-- The first block of the run: 16777216.0 from "A" to the owner, and the reward. -/
def stuckBlock1 : Block :=
  { timestamp := 1700000000000012487, nonce := 0,
    prevHash := [37, 128, 27, 57, 140, 151, 195, 101, 23, 229, 189, 115, 34, 25, 168, 0,
      139, 223, 22, 119, 21, 242, 67, 43, 16, 79, 142, 253, 4, 206, 181, 177],
    transactions := some
      [{ senderAddress := ascii "A", recipientAddress := demoOwner, value := ⟨0x4B800000⟩ },
       { senderAddress := MINING_SENDER, recipientAddress := demoOwner, value := MINING_REWARD }] }

/-- The ledger after `addTransaction("A", "addr1", 16777216.0)` and `Mining`. -/
def stuckMined1 : Blockchain :=
  { transactionPool := some [], chain := stuckGenesis.chain ++ [stuckBlock1],
    blockchainAddress := demoOwner }

/-- The second block of the run: the reward alone. -/
def stuckBlock2 : Block :=
  { timestamp := 1700000000000017487, nonce := 0,
    prevHash := [3, 55, 69, 98, 209, 133, 60, 238, 86, 164, 38, 203, 153, 188, 135, 219,
      148, 239, 61, 146, 151, 83, 202, 3, 54, 168, 13, 116, 199, 71, 155, 198],
    transactions := some
      [{ senderAddress := MINING_SENDER, recipientAddress := demoOwner, value := MINING_REWARD }] }

/-- The ledger after a second `Mining`, on the empty pool. -/
def stuckMined2 : Blockchain :=
  { transactionPool := some [], chain := stuckMined1.chain ++ [stuckBlock2],
    blockchainAddress := demoOwner }

/-- A ledger with one block of transfers and no reward: 16777216.0 from "A" to "B" and
three times 1.0 from "C" to "B". -/
def driftLedger : Blockchain :=
  { transactionPool := some [],
    chain := demoGenesis.chain ++
      [{ timestamp := 1700000000000009999, nonce := 0, prevHash := demoBlock.prevHash,
         transactions := some
           [{ senderAddress := ascii "A", recipientAddress := ascii "B", value := ⟨0x4B800000⟩ },
            { senderAddress := ascii "C", recipientAddress := ascii "B", value := ⟨0x3F800000⟩ },
            { senderAddress := ascii "C", recipientAddress := ascii "B", value := ⟨0x3F800000⟩ },
            { senderAddress := ascii "C", recipientAddress := ascii "B", value := ⟨0x3F800000⟩ }] }],
    blockchainAddress := demoOwner }

/-- The ledger `driftLedger` with 5.0 in place of 16777216.0. -/
def smallLedger : Blockchain :=
  { transactionPool := some [],
    chain := demoGenesis.chain ++
      [{ timestamp := 1700000000000009999, nonce := 0, prevHash := demoBlock.prevHash,
         transactions := some
           [{ senderAddress := ascii "A", recipientAddress := ascii "B", value := ⟨0x40A00000⟩ },
            { senderAddress := ascii "C", recipientAddress := ascii "B", value := ⟨0x3F800000⟩ },
            { senderAddress := ascii "C", recipientAddress := ascii "B", value := ⟨0x3F800000⟩ },
            { senderAddress := ascii "C", recipientAddress := ascii "B", value := ⟨0x3F800000⟩ }] }],
    blockchainAddress := demoOwner }

theorem txList_some (ts : List Transaction) : txList (some ts) = ts := rfl

theorem Sha256.sum256_length (msg : List Nat) : (Sha256.sum256 msg).length = 32 := by
  unfold Sha256.sum256
  simp [Sha256.wordBytes]

theorem Block.Hash_length (b : Block) : b.Hash.length = 32 := Sha256.sum256_length _

theorem hexString_length (bs : Bytes) : (hexString bs).length = 2 * bs.length := by
  induction bs with
  | nil => rfl
  | cons b bs ih => simp [hexString, ih]; omega

theorem hexString_hash_length (b : Block) : (hexString b.Hash).length = 64 := by
  rw [hexString_length, Block.Hash_length]

theorem LastBlock_eq_some {bc : Blockchain} {b : Block} :
    LastBlock bc = some b ↔ bc.chain.getLast? = some b := by
  unfold LastBlock
  by_cases h : bc.chain.length = 0
  · have : bc.chain = [] := List.length_eq_zero.mp h
    simp [this]
  · simp only [h, if_false, List.getLast?_eq_getElem?, List.get?_eq_getElem?]

theorem LastBlock_append (bc : Blockchain) (bs : List Block) (b : Block)
    (h : bc.chain = bs ++ [b]) : LastBlock bc = some b := by
  rw [LastBlock_eq_some, h]; simp

theorem copy_eq (bc : Blockchain) :
    CopyTransactionPool bc = (some (txList bc.transactionPool), bc) := by
  unfold CopyTransactionPool NewTransaction
  simp

/-- What a returning call of `Mining` does, spelled out. -/
theorem Mining_eq_some {now : Int} {fuel : Nat} {bc bc2 : Blockchain} {r : Bool}
    (h : Mining now fuel bc = some (r, bc2)) :
    ∃ last nonce,
      LastBlock bc = some last ∧
      powLoop last.Hash
        (some (txList bc.transactionPool ++
          [NewTransaction MINING_SENDER bc.blockchainAddress MINING_REWARD])) fuel 0 = some nonce ∧
      r = true ∧
      bc2 = { transactionPool := some [],
              chain := bc.chain ++ [newBlock now nonce last.Hash
                (some (txList bc.transactionPool ++
                  [NewTransaction MINING_SENDER bc.blockchainAddress MINING_REWARD]))],
              blockchainAddress := bc.blockchainAddress } := by
  unfold Mining ProofOfWork at h
  simp only [copy_eq] at h
  have hl : LastBlock (addTransaction bc MINING_SENDER bc.blockchainAddress MINING_REWARD)
      = LastBlock bc := rfl
  rw [hl] at h
  cases hlast : LastBlock bc with
  | none => simp [hlast] at h
  | some last =>
    simp only [hlast] at h
    cases hp : powLoop last.Hash
        (some (txList (addTransaction bc MINING_SENDER bc.blockchainAddress
          MINING_REWARD).transactionPool)) fuel 0 with
    | none => simp [hp] at h
    | some nonce =>
      simp only [hp, hl, hlast] at h
      refine ⟨last, nonce, rfl, ?_, ?_, ?_⟩
      · simpa [addTransaction, txList_some] using hp
      · simp at h; exact h.1
      · simp at h; rw [← h.2]; rfl

theorem wrapInt64_eq (x : Int) (h0 : -9223372036854775808 ≤ x) (h1 : x < 9223372036854775808) :
    wrapInt64 x = x := by
  unfold wrapInt64; omega

/-- The loop of `ProofOfWork`, started at `k` with no room to overflow, returns the
first value from `k` on that `ValidProof` accepts. -/
theorem powLoop_spec (prev : Bytes) (txs : Option (List Transaction)) :
    ∀ (fuel : Nat) (k n : Int), 0 ≤ k → k + fuel ≤ 9223372036854775808 →
      powLoop prev txs fuel k = some n →
      k ≤ n ∧ ValidProof n prev txs MINING_DIFFICULTY = some true ∧
      ∀ m, k ≤ m → m < n → ValidProof m prev txs MINING_DIFFICULTY = some false := by
  intro fuel
  induction fuel with
  | zero => intro k n _ _ h; simp [powLoop] at h
  | succ fuel ih =>
    intro k n hk hb h
    unfold powLoop at h
    cases hv : ValidProof k prev txs MINING_DIFFICULTY with
    | none => simp [hv] at h
    | some b =>
      cases b with
      | true =>
        simp [hv] at h
        subst h
        exact ⟨le_refl _, hv, fun m h1 h2 => absurd h1 (not_le.mpr h2)⟩
      | false =>
        simp only [hv] at h
        cases fuel with
        | zero => simp [powLoop] at h
        | succ fuel2 =>
          have hw : wrapInt64 (k + 1) = k + 1 := by
            apply wrapInt64_eq <;> push_cast at hb <;> omega
          rw [hw] at h
          have := ih (k + 1) n (by omega) (by push_cast at hb ⊢; omega) h
          refine ⟨by omega, this.2.1, ?_⟩
          intro m h1 h2
          by_cases hm : m = k
          · subst hm; exact hv
          · exact this.2.2 m (by omega) h2

theorem take_eq_replicate_iff {α : Type} (c : α) :
    ∀ (n : Nat) (l : List α), n ≤ l.length →
      (l.take n = List.replicate n c ↔ ∀ i, i < n → l.get? i = some c) := by
  intro n
  induction n with
  | zero => intro l _; simp
  | succ n ih =>
    intro l hl
    cases l with
    | nil => simp at hl
    | cons x xs =>
      simp only [List.take_succ_cons, List.replicate_succ, List.cons.injEq, List.length_cons] at hl ⊢
      rw [ih xs (by omega)]
      constructor
      · rintro ⟨rfl, h⟩ i hi
        cases i with
        | zero => rfl
        | succ i => simpa using h i (by omega)
      · intro h
        refine ⟨by simpa using h 0 (by omega), fun i hi => ?_⟩
        simpa using h (i + 1) (by omega)

/-- The model of `sha256.Sum256` on the test vector "abc" of FIPS 180-4. -/
theorem Sha256.sum256_abc : Sha256.sum256 (ascii "abc") =
    [186, 120, 22, 191, 143, 1, 207, 234, 65, 65, 64, 222, 93, 174, 34, 35,
     176, 3, 97, 163, 150, 23, 122, 156, 180, 16, 255, 97, 242, 0, 21, 173] := by decide

/-- The bytes `Block.Hash` digests for the block of the example run. -/
theorem demo_block_json : demoBlock.MarshalJSON = some (ascii
    "\x7b\"nonce\":2,\"prevHash\":[117,82,171,146,4,100,68,86,182,43,51,181,246,113,242,110,47,187,116,180,236,76,37,23,32,188,166,119,67,1,57,25],\"timestamp\":1700000000000009999,\"transactions\":[\x7b\"senderAddress\":\"A\",\"recipientAddress\":\"B\",\"value\":1\x7d,\x7b\"senderAddress\":\"THE BLOCKCHAIN\",\"recipientAddress\":\"addr1\",\"value\":1\x7d]\x7d") := by
  decide

theorem demo_genesis : newBlockchain demoOwner 1700000000000008940 = demoGenesis := by decide

theorem demo_add : addTransaction demoGenesis (ascii "A") (ascii "B") ⟨0x3F800000⟩ = demoPending := by decide

theorem demo_mining : Mining 1700000000000009999 3 demoPending = some (true, demoMined) := by
  decide

theorem demo_run : run (newBlockchain demoOwner 1700000000000008940) demoCalls = some demoMined := by
  rw [demo_genesis]
  simp only [demoCalls, run, step, demo_add, demo_mining, Option.map]

theorem demo_block_hash : demoBlock.Hash =
    [34, 211, 71, 192, 50, 23, 112, 34, 6, 43, 167, 27, 201, 27, 58, 156, 147, 156, 6, 207, 121,
      201, 40, 119, 122, 228, 73, 174, 26, 61, 65, 156] := by decide

/-- C4 (genesis invariant). For every address and clock value, `newBlockchain` yields
a ledger whose chain is exactly one block; that block has nonce 0, no transactions
and, as previous hash, the hash of the all-zero placeholder block (timestamp 0,
nonce 0, 32 zero bytes, no transactions); the pool is empty and the owner is the
address given. -/
theorem genesis_invariant (addr : Bytes) (now : Int) :
    (newBlockchain addr now).chain.length = 1 ∧
    (∃ g, (newBlockchain addr now).chain = [g] ∧ g.nonce = 0 ∧ txList g.transactions = [] ∧
      g.prevHash = Block.Hash
        { timestamp := 0, nonce := 0, prevHash := List.replicate 32 0, transactions := none }) ∧
    txList (newBlockchain addr now).transactionPool = [] ∧
    (newBlockchain addr now).blockchainAddress = addr := by
  refine ⟨rfl, ⟨_, rfl, rfl, rfl, rfl⟩, rfl, rfl⟩

/-- C7 (pool emptied on commit). When `Mining` returns, the pending pool of the ledger
is empty, of length 0; the same holds for the ledger `newBlockchain` yields. -/
theorem pool_empty_after_commit :
    (∀ (now : Int) (fuel : Nat) (bc bc2 : Blockchain) (r : Bool),
      Mining now fuel bc = some (r, bc2) →
        bc2.transactionPool = some [] ∧ (txList bc2.transactionPool).length = 0) ∧
    (∀ (addr : Bytes) (now : Int),
      (newBlockchain addr now).transactionPool = some [] ∧
      (txList (newBlockchain addr now).transactionPool).length = 0) := by
  refine ⟨?_, fun _ _ => ⟨rfl, rfl⟩⟩
  intro now fuel bc bc2 r h
  obtain ⟨last, nonce, _, _, _, rfl⟩ := Mining_eq_some h
  exact ⟨rfl, rfl⟩

/-- C7 on the example run: the pool is empty after `Mining` returned. -/
theorem pool_empty_after_commit_witness :
    demoMined.transactionPool = some [] ∧ (txList demoMined.transactionPool).length = 0 :=
  pool_empty_after_commit.1 1700000000000009999 3 demoPending demoMined true demo_mining

theorem addAll_spec (ts : List Transaction) :
    ∀ bc : Blockchain,
      txList (addAll bc ts).transactionPool = txList bc.transactionPool ++ ts ∧
      (addAll bc ts).chain = bc.chain ∧
      (addAll bc ts).blockchainAddress = bc.blockchainAddress := by
  induction ts with
  | nil => intro bc; simp [addAll]
  | cons t ts ih =>
    intro bc
    have := ih (addTransaction bc t.senderAddress t.recipientAddress t.value)
    simp only [addAll, List.foldl_cons] at this ⊢
    refine ⟨?_, this.2.1, this.2.2⟩
    rw [this.1]
    simp [addTransaction, txList_some, NewTransaction]

/-- C8 (addTransaction is a FIFO append without validation). For every ledger, sender,
recipient and amount (any `float32` word: zero, negative, NaN), after `addTransaction`
the pool is the pool before followed by the one transaction, and chain and owner are
unchanged; after the calls for `t1..tk` the pool is the pool before followed by
`t1..tk` in the order of submission. -/
theorem addTransaction_appends (bc : Blockchain) :
    (∀ (sender recipient : Bytes) (value : Float32),
      (addTransaction bc sender recipient value).transactionPool =
        some (txList bc.transactionPool ++
          [{ senderAddress := sender, recipientAddress := recipient, value := value }]) ∧
      (addTransaction bc sender recipient value).chain = bc.chain ∧
      (addTransaction bc sender recipient value).blockchainAddress = bc.blockchainAddress) ∧
    (∀ ts : List Transaction,
      txList (addAll bc ts).transactionPool = txList bc.transactionPool ++ ts ∧
      (addAll bc ts).chain = bc.chain ∧
      (addAll bc ts).blockchainAddress = bc.blockchainAddress) :=
  ⟨fun _ _ _ => ⟨rfl, rfl, rfl⟩, fun ts => addAll_spec ts bc⟩

/-- C6 (append-only chain). When `Mining` returns, the chain is the chain before with
one block appended: its length grew by exactly 1, every block committed before is
unchanged at its index, and the owner is unchanged; a later `addTransaction` leaves
the whole chain, hence the transactions of every committed block, unchanged. -/
theorem mining_appends_one_block (now : Int) (fuel : Nat) (bc bc2 : Blockchain) (r : Bool)
    (h : Mining now fuel bc = some (r, bc2)) :
    bc2.chain.length = bc.chain.length + 1 ∧
    (∃ b, bc2.chain = bc.chain ++ [b]) ∧
    (∀ i, i < bc.chain.length → bc2.chain.get? i = bc.chain.get? i) ∧
    bc2.blockchainAddress = bc.blockchainAddress ∧
    (∀ (sender recipient : Bytes) (value : Float32),
      (addTransaction bc2 sender recipient value).chain = bc2.chain) ∧
    (∀ ts : List Transaction, (addAll bc2 ts).chain = bc2.chain) := by
  obtain ⟨last, nonce, _, _, _, rfl⟩ := Mining_eq_some h
  refine ⟨by simp, ⟨_, rfl⟩, ?_, rfl, fun _ _ _ => rfl, fun ts => (addAll_spec ts _).2.1⟩
  intro i hi
  simp [List.getElem?_append_left hi]

theorem powLoop_valid (prev : Bytes) (txs : Option (List Transaction)) :
    ∀ (fuel : Nat) (k n : Int), powLoop prev txs fuel k = some n →
      ValidProof n prev txs MINING_DIFFICULTY = some true := by
  intro fuel
  induction fuel with
  | zero => intro k n h; simp [powLoop] at h
  | succ fuel ih =>
    intro k n h
    unfold powLoop at h
    cases hv : ValidProof k prev txs MINING_DIFFICULTY with
    | none => simp [hv] at h
    | some b =>
      cases b with
      | true => simp [hv] at h; subst h; exact hv
      | false => simp only [hv] at h; exact ih _ _ h

theorem ProofOfWork_eq_some {fuel : Nat} {bc bc2 : Blockchain} {n : Int}
    (h : ProofOfWork fuel bc = some (n, bc2)) :
    ∃ last, LastBlock bc = some last ∧
      powLoop last.Hash (CopyTransactionPool bc).1 fuel 0 = some n ∧ bc2 = bc := by
  unfold ProofOfWork at h
  simp only [copy_eq] at h ⊢
  cases hlast : LastBlock bc with
  | none => simp [hlast] at h
  | some last =>
    simp only [hlast] at h
    cases hp : powLoop last.Hash (some (txList bc.transactionPool)) fuel 0 with
    | none => simp [hp] at h
    | some nonce =>
      simp [hp] at h
      exact ⟨last, rfl, by rw [h.1] at hp; exact hp, h.2.symm⟩

theorem ValidProof_difficulty_isSome (nonce : Int) (previousHash : Bytes)
    (transactions : Option (List Transaction)) :
    ∃ b, ValidProof nonce previousHash transactions MINING_DIFFICULTY = some b := by
  have hlen := hexString_hash_length (guessBlock nonce previousHash transactions)
  unfold ValidProof MINING_DIFFICULTY
  simp [hlen]

/-- The loop returns when a value within its fuel, short of the overflow of the
counter, passes `ValidProof`. -/
theorem powLoop_returns (prev : Bytes) (txs : Option (List Transaction)) :
    ∀ (fuel : Nat) (k m : Int), 0 ≤ k → k ≤ m → m < k + fuel → k + fuel ≤ 9223372036854775808 →
      ValidProof m prev txs MINING_DIFFICULTY = some true →
      ∃ n, powLoop prev txs fuel k = some n ∧ n ≤ m := by
  intro fuel
  induction fuel with
  | zero => intro k m _ h1 h2 _ _; simp at h2; omega
  | succ fuel ih =>
    intro k m hk h1 h2 hb hv
    unfold powLoop
    obtain ⟨b, hvk⟩ := ValidProof_difficulty_isSome k prev txs
    cases b with
    | true => exact ⟨k, by simp [hvk], h1⟩
    | false =>
      have hkm : k ≠ m := by
        intro h; rw [h, hv] at hvk; simp at hvk
      have hw : wrapInt64 (k + 1) = k + 1 := by
        apply wrapInt64_eq <;> push_cast at h2 hb <;> omega
      simp only [hvk, hw]
      exact ih (k + 1) m (by omega) (by omega) (by push_cast at h2 ⊢; omega)
        (by push_cast at hb ⊢; omega) hv

/-- `ProofOfWork` returns on a ledger with a last block once some nonce below the
fuel passes `ValidProof`. -/
theorem ProofOfWork_returns (fuel : Nat) (bc : Blockchain) (last : Block) (m : Int)
    (hl : LastBlock bc = some last) (h0 : 0 ≤ m) (hm : m < fuel)
    (hf : fuel ≤ 9223372036854775808)
    (hv : ValidProof m last.Hash (CopyTransactionPool bc).1 MINING_DIFFICULTY = some true) :
    ∃ n, ProofOfWork fuel bc = some (n, bc) ∧ n ≤ m := by
  obtain ⟨n, hn, hnm⟩ := powLoop_returns last.Hash (CopyTransactionPool bc).1 fuel 0 m
    (le_refl _) h0 (by omega) (by omega) hv
  refine ⟨n, ?_, hnm⟩
  unfold ProofOfWork
  simp only [copy_eq] at hn ⊢
  simp [hl, hn]

/-- C3 (ProofOfWork returns the first winning nonce). When `ProofOfWork` returns `n`
after at most `2^63` tests (before the 64-bit counter could wrap), `n ≥ 0`,
`ValidProof` accepts `n` against the hash of the last block and the copy of the pool
at difficulty `MINING_DIFFICULTY`, it rejects every `m` with `0 ≤ m < n`, and the
ledger after the call is the ledger before it. -/
theorem proofOfWork_first_nonce (fuel : Nat) (bc bc2 : Blockchain) (n : Int)
    (hfuel : fuel ≤ 9223372036854775808)
    (h : ProofOfWork fuel bc = some (n, bc2)) :
    0 ≤ n ∧
    (∃ last, LastBlock bc = some last ∧
      ValidProof n last.Hash (CopyTransactionPool bc).1 MINING_DIFFICULTY = some true ∧
      ∀ m : Int, 0 ≤ m → m < n →
        ValidProof m last.Hash (CopyTransactionPool bc).1 MINING_DIFFICULTY = some false) ∧
    bc2.chain = bc.chain ∧ bc2.transactionPool = bc.transactionPool ∧
    bc2.blockchainAddress = bc.blockchainAddress := by
  obtain ⟨last, hl, hp, hb⟩ := ProofOfWork_eq_some h
  have := powLoop_spec last.Hash (CopyTransactionPool bc).1 fuel 0 n (le_refl _)
    (by omega) hp
  rw [hb]
  exact ⟨this.1, ⟨last, hl, this.2.1, this.2.2⟩, rfl, rfl, rfl⟩

theorem demo_proofOfWork :
    ProofOfWork 3 (addTransaction demoPending MINING_SENDER demoOwner MINING_REWARD) =
      some (2, addTransaction demoPending MINING_SENDER demoOwner MINING_REWARD) := by
  decide

/-- C3 on the example run: `ProofOfWork` returns 2 within 3 tests. -/
theorem proofOfWork_first_nonce_witness :
    (0 : Int) ≤ 2 ∧
    (∃ last, LastBlock (addTransaction demoPending MINING_SENDER demoOwner MINING_REWARD)
        = some last ∧
      ValidProof 2 last.Hash
        (CopyTransactionPool (addTransaction demoPending MINING_SENDER demoOwner
          MINING_REWARD)).1 MINING_DIFFICULTY = some true ∧
      ∀ m : Int, 0 ≤ m → m < 2 →
        ValidProof m last.Hash
          (CopyTransactionPool (addTransaction demoPending MINING_SENDER demoOwner
            MINING_REWARD)).1 MINING_DIFFICULTY = some false) ∧
    (addTransaction demoPending MINING_SENDER demoOwner MINING_REWARD).chain =
      (addTransaction demoPending MINING_SENDER demoOwner MINING_REWARD).chain ∧
    (addTransaction demoPending MINING_SENDER demoOwner MINING_REWARD).transactionPool =
      (addTransaction demoPending MINING_SENDER demoOwner MINING_REWARD).transactionPool ∧
    (addTransaction demoPending MINING_SENDER demoOwner MINING_REWARD).blockchainAddress =
      (addTransaction demoPending MINING_SENDER demoOwner MINING_REWARD).blockchainAddress :=
  proofOfWork_first_nonce 3 _ _ 2 (by decide) demo_proofOfWork

/-- C5 (Mining commit contents). When `Mining` returns, it returns `true`, and the new
last block of the chain holds the pool before the call followed by exactly one reward
transaction (sender "THE BLOCKCHAIN", recipient the owner, amount 1.0), the hash of
the block that was last before the call as its previous hash, the nonce `ProofOfWork`
returns on the ledger with the reward in its pool, and the clock value read. -/
theorem mining_commit_contents (now : Int) (fuel : Nat) (bc bc2 : Blockchain) (r : Bool)
    (h : Mining now fuel bc = some (r, bc2)) :
    r = true ∧
    ∃ last nonce,
      LastBlock bc = some last ∧
      (ProofOfWork fuel
        (addTransaction bc (ascii "THE BLOCKCHAIN") bc.blockchainAddress ⟨0x3F800000⟩)).map
          Prod.fst = some nonce ∧
      LastBlock bc2 = some
        { timestamp := now, nonce := nonce, prevHash := last.Hash,
          transactions := some (txList bc.transactionPool ++
            [{ senderAddress := ascii "THE BLOCKCHAIN", recipientAddress := bc.blockchainAddress,
               value := ⟨0x3F800000⟩ }]) } := by
  obtain ⟨last, nonce, hl, hp, hr, rfl⟩ := Mining_eq_some h
  refine ⟨hr, last, nonce, hl, ?_, ?_⟩
  · have hl2 : LastBlock (addTransaction bc (ascii "THE BLOCKCHAIN") bc.blockchainAddress
        ⟨0x3F800000⟩) = some last := hl
    unfold ProofOfWork
    simp only [copy_eq, hl2]
    have hp2 : powLoop last.Hash (some (txList (addTransaction bc (ascii "THE BLOCKCHAIN")
        bc.blockchainAddress ⟨0x3F800000⟩).transactionPool)) fuel 0 = some nonce := hp
    simp [hp2]
  · exact LastBlock_append _ _ _ rfl

/-- C5 on the example run. -/
theorem mining_commit_contents_witness :
    true = true ∧
    ∃ last nonce,
      LastBlock demoPending = some last ∧
      (ProofOfWork 3
        (addTransaction demoPending (ascii "THE BLOCKCHAIN") demoPending.blockchainAddress
          ⟨0x3F800000⟩)).map Prod.fst = some nonce ∧
      LastBlock demoMined = some
        { timestamp := 1700000000000009999, nonce := nonce, prevHash := last.Hash,
          transactions := some (txList demoPending.transactionPool ++
            [{ senderAddress := ascii "THE BLOCKCHAIN",
               recipientAddress := demoPending.blockchainAddress,
               value := ⟨0x3F800000⟩ }]) } :=
  mining_commit_contents 1700000000000009999 3 demoPending demoMined true demo_mining

/-- C6 on the example run. -/
theorem mining_appends_one_block_witness :
    demoMined.chain.length = demoPending.chain.length + 1 ∧
    (∃ b, demoMined.chain = demoPending.chain ++ [b]) ∧
    (∀ i, i < demoPending.chain.length → demoMined.chain.get? i = demoPending.chain.get? i) ∧
    demoMined.blockchainAddress = demoPending.blockchainAddress ∧
    (∀ (sender recipient : Bytes) (value : Float32),
      (addTransaction demoMined sender recipient value).chain = demoMined.chain) ∧
    (∀ ts : List Transaction, (addAll demoMined ts).chain = demoMined.chain) :=
  mining_appends_one_block 1700000000000009999 3 demoPending demoMined true demo_mining

/-- C9 (ValidProof decides the zero-prefix target). For every nonce, previous hash,
transaction list and difficulty `d` with `0 ≤ d ≤ 64`, `ValidProof` returns, and it
returns `true` exactly when the first `d` characters of the 64-character hexadecimal
text of the hash of the candidate block (timestamp 0, the nonce, the previous hash,
the transactions) are all the character 0. -/
theorem validProof_iff_zero_chars (nonce : Int) (previousHash : Bytes)
    (transactions : Option (List Transaction)) (d : Int) (h0 : 0 ≤ d) (h1 : d ≤ 64) :
    (hexString (guessBlock nonce previousHash transactions).Hash).length = 64 ∧
    ∃ b, ValidProof nonce previousHash transactions d = some b ∧
      (b = true ↔ ∀ i : Nat, (i : Int) < d →
        (hexString (guessBlock nonce previousHash transactions).Hash).get? i = some 48) := by
  refine ⟨hexString_hash_length _, ?_⟩
  have hlen := hexString_hash_length (guessBlock nonce previousHash transactions)
  have hd : d.toNat ≤ 64 := by omega
  unfold ValidProof
  simp only [not_lt.mpr h0, if_false, hlen, not_lt.mpr hd]
  refine ⟨_, rfl, ?_⟩
  rw [decide_eq_true_iff, take_eq_replicate_iff 48 d.toNat _ (by rw [hlen]; exact hd)]
  constructor
  · intro h i hi; exact h i (by omega)
  · intro h i hi; exact h i (by omega)

/-- C9 at difficulty 3 on the candidate of the example run. -/
theorem validProof_iff_zero_chars_witness :
    (hexString (guessBlock 2 demoBlock.prevHash demoBlock.transactions).Hash).length = 64 ∧
    ∃ b, ValidProof 2 demoBlock.prevHash demoBlock.transactions 3 = some b ∧
      (b = true ↔ ∀ i : Nat, (i : Int) < 3 →
        (hexString (guessBlock 2 demoBlock.prevHash demoBlock.transactions).Hash).get? i
          = some 48) :=
  validProof_iff_zero_chars 2 demoBlock.prevHash demoBlock.transactions 3 (by decide) (by decide)

/-- Reachable ledgers: a property of the fresh ledger that `addTransaction` and every
returning `Mining` preserve holds after every run. -/
theorem run_induction (P : Blockchain → Prop)
    (hadd : ∀ bc sender recipient value, P bc → P (addTransaction bc sender recipient value))
    (hmine : ∀ now fuel bc bc2 r, P bc → Mining now fuel bc = some (r, bc2) → P bc2) :
    ∀ (calls : List Call) (bc bc2 : Blockchain), P bc → run bc calls = some bc2 → P bc2 := by
  intro calls
  induction calls with
  | nil => intro bc bc2 hP h; simp [run] at h; exact h ▸ hP
  | cons c cs ih =>
    intro bc bc2 hP h
    unfold run at h
    cases hs : step bc c with
    | none => simp [hs] at h
    | some bc1 =>
      simp only [hs] at h
      refine ih bc1 bc2 ?_ h
      cases c with
      | add sender recipient value =>
        simp [step] at hs; exact hs ▸ hadd _ _ _ _ hP
      | mine now fuel =>
        simp only [step] at hs
        cases hm : Mining now fuel bc with
        | none => simp [hm] at hs
        | some p =>
          obtain ⟨r, bc3⟩ := p
          simp [hm] at hs
          exact hs ▸ hmine _ _ _ _ _ hP hm

theorem reachable_linked (addr : Bytes) (now : Int) (calls : List Call) (bc : Blockchain)
    (h : run (newBlockchain addr now) calls = some bc) : Linked bc := by
  refine run_induction Linked ?_ ?_ calls _ bc ?_ h
  · intro bc _ _ _ hP; exact hP
  · intro now fuel bc bc2 r hP hm
    obtain ⟨last, nonce, hl, _, _, rfl⟩ := Mining_eq_some hm
    unfold Linked at hP ⊢
    simp only []
    refine List.Chain'.append hP (List.chain'_singleton _) ?_
    intro x hx y hy
    rw [LastBlock_eq_some] at hl
    simp at hy
    rw [hl] at hx
    simp at hx
    subst hx; subst hy
    rfl
  · unfold Linked newBlockchain createBlock
    simp

/-- C1 (chain linkage). For every ledger reachable from `newBlockchain(addr)` by calls
of `addTransaction` and `Mining` that return, and every index `i` with
`1 ≤ i < len(chain)`, the previous hash of `chain[i]` is the hash of `chain[i-1]`. -/
theorem chain_linkage (addr : Bytes) (now : Int) (calls : List Call) (bc : Blockchain)
    (h : run (newBlockchain addr now) calls = some bc)
    (i : Nat) (h1 : 1 ≤ i) (h2 : i < bc.chain.length) :
    (bc.chain.get ⟨i, h2⟩).prevHash = (bc.chain.get ⟨i - 1, by omega⟩).Hash := by
  have hL := reachable_linked addr now calls bc h
  unfold Linked at hL
  rw [List.chain'_iff_get] at hL
  have := hL (i - 1) (by omega)
  have hi : i - 1 + 1 = i := by omega
  simp only [hi] at this
  exact this

/-- C1 on the example run, at index 1. -/
theorem chain_linkage_witness :
    (demoMined.chain.get ⟨1, by decide⟩).prevHash = (demoMined.chain.get ⟨1 - 1, by decide⟩).Hash :=
  chain_linkage demoOwner 1700000000000008940 demoCalls demoMined demo_run 1 (by decide) (by decide)

theorem ValidProof_difficulty (nonce : Int) (previousHash : Bytes)
    (transactions : Option (List Transaction)) :
    ValidProof nonce previousHash transactions MINING_DIFFICULTY = some true ↔
      (hexString (guessBlock nonce previousHash transactions).Hash).take 3 = [48, 48, 48] := by
  have hlen := hexString_hash_length (guessBlock nonce previousHash transactions)
  unfold ValidProof MINING_DIFFICULTY
  simp [hlen, List.replicate]

theorem reachable_sealed (addr : Bytes) (now : Int) (calls : List Call) (bc : Blockchain)
    (h : run (newBlockchain addr now) calls = some bc) :
    bc.chain ≠ [] ∧ ∀ b ∈ bc.chain.tail, Sealed b := by
  refine run_induction (fun bc => bc.chain ≠ [] ∧ ∀ b ∈ bc.chain.tail, Sealed b)
    ?_ ?_ calls _ bc ?_ h
  · intro bc _ _ _ hP; exact hP
  · intro now fuel bc bc2 r hP hm
    obtain ⟨last, nonce, hl, hp, _, rfl⟩ := Mining_eq_some hm
    refine ⟨by simp, ?_⟩
    intro b hb
    simp only [List.tail_append_of_ne_nil hP.1, List.mem_append, List.mem_singleton] at hb
    rcases hb with hb | hb
    · exact hP.2 b hb
    · subst hb
      exact powLoop_valid _ _ _ _ _ hp
  · refine ⟨by simp [newBlockchain, createBlock], ?_⟩
    intro b hb
    simp [newBlockchain, createBlock] at hb

/-- C2, as the code has it. Every block but the first of a reachable chain passes
`ValidProof` at difficulty 3 with its own nonce, previous hash and transactions: the
hexadecimal text of the hash of the block with its timestamp replaced by 0 starts
with "000". -/
theorem committed_block_proof (addr : Bytes) (now : Int) (calls : List Call) (bc : Blockchain)
    (h : run (newBlockchain addr now) calls = some bc) (b : Block) (hb : b ∈ bc.chain.tail) :
    ValidProof b.nonce b.prevHash b.transactions 3 = some true ∧
    (hexString (Block.Hash { b with timestamp := 0 })).take 3 = ascii "000" := by
  have hs := (reachable_sealed addr now calls bc h).2 b hb
  exact ⟨hs, (ValidProof_difficulty _ _ _).mp hs⟩

/-- The amended C2 on the block of the example run. -/
theorem committed_block_proof_witness :
    ValidProof demoBlock.nonce demoBlock.prevHash demoBlock.transactions 3 = some true ∧
    (hexString (Block.Hash { demoBlock with timestamp := 0 })).take 3 = ascii "000" :=
  committed_block_proof demoOwner 1700000000000008940 demoCalls demoMined demo_run demoBlock
    (by decide)

/-- C2 as stated fails. The example ledger is reachable, `demoBlock` is its second
block, and the hexadecimal text of the hash of `demoBlock` itself, over its stored
timestamp, starts with "22d": not every committed block has an own hash that
starts with "000". -/
theorem own_hash_difficulty_counterexample :
    run (newBlockchain demoOwner 1700000000000008940) demoCalls = some demoMined ∧
    demoBlock ∈ demoMined.chain.tail ∧
    (hexString demoBlock.Hash).take 3 = ascii "22d" ∧
    ¬ (∀ (addr : Bytes) (now : Int) (calls : List Call) (bc : Blockchain),
        run (newBlockchain addr now) calls = some bc →
        ∀ b ∈ bc.chain.tail, (hexString b.Hash).take 3 = ascii "000") := by
  have h3 : (hexString demoBlock.Hash).take 3 = ascii "22d" := by
    rw [demo_block_hash]; decide
  refine ⟨demo_run, by decide, h3, ?_⟩
  intro hall
  have := hall demoOwner 1700000000000008940 demoCalls demoMined demo_run demoBlock (by decide)
  rw [h3] at this
  revert this
  decide

/-! ## Exact totals -/

theorem log2Loop_eq : ∀ (fuel m : Nat), m ≤ fuel → log2Loop fuel m = Nat.log 2 m := by
  intro fuel
  induction fuel with
  | zero =>
    intro m hm
    have : m = 0 := by omega
    subst this
    simp [log2Loop]
  | succ fuel ih =>
    intro m hm
    unfold log2Loop
    by_cases h2 : m < 2
    · simp [h2, Nat.log_of_lt h2]
    · simp only [h2, if_false]
      rw [ih (m / 2) (by omega)]
      exact (Nat.log_of_one_lt_of_le (by norm_num) (by omega)).symm

/-- A magnitude that is a multiple of `2^j` and at most `2^24` such multiples is a
`float32` magnitude: rounding keeps it. -/
theorem roundMag_exact (m j : Nat) (hj : j ≤ 252) (hdiv : 2 ^ j ∣ m) (hle : m ≤ 2 ^ 24 * 2 ^ j) :
    Float32.roundMag m < 2139095040 ∧
    (if Float32.roundMag m / 8388608 % 256 = 0 then Float32.roundMag m % 8388608
     else (8388608 + Float32.roundMag m % 8388608) * 2 ^ (Float32.roundMag m / 8388608 % 256 - 1))
      = m := by
  unfold Float32.roundMag
  rw [log2Loop_eq m m (le_refl _)]
  by_cases hsmall : m < 16777216
  · have hlog : Nat.log 2 m ≤ 23 := by
      by_cases h0 : m = 0
      · simp [h0]
      · have := Nat.pow_log_le_self 2 h0
        by_contra hc
        have h24 : 2 ^ 24 ≤ 2 ^ Nat.log 2 m := Nat.pow_le_pow_right (by norm_num) (by omega)
        norm_num at h24
        omega
    have hs : Nat.log 2 m - 23 = 0 := by omega
    simp only [hs, pow_zero, Nat.div_one, Nat.mod_one, mul_zero, zero_mul, zero_add]
    have hup : (if 1 < 0 ∨ (0 = 1 ∧ m % 2 = 1) then 1 else 0) = 0 := by simp
    rw [hup]
    have hmin : min (m + 0) 2139095040 = m := by omega
    rw [hmin]
    refine ⟨by omega, ?_⟩
    by_cases hm : m < 8388608
    · have h1 : m / 8388608 % 256 = 0 := by omega
      simp only [h1, if_true]
      omega
    · have h1 : m / 8388608 % 256 = 1 := by omega
      simp only [h1]
      simp
      omega
  · have hm0 : m ≠ 0 := by omega
    have hlo := Nat.pow_log_le_self 2 hm0
    have hhi := Nat.lt_pow_succ_log_self (by norm_num : 1 < 2) m
    have hn24 : 24 ≤ Nat.log 2 m := by
      by_contra hc
      have : 2 ^ (Nat.log 2 m).succ ≤ 2 ^ 24 := Nat.pow_le_pow_right (by norm_num) (by omega)
      norm_num at this
      omega
    have hnj : Nat.log 2 m ≤ 24 + j := by
      by_contra hc
      have : 2 ^ (24 + j + 1) ≤ 2 ^ Nat.log 2 m := Nat.pow_le_pow_right (by norm_num) (by omega)
      rw [pow_succ, pow_add] at this
      omega
    obtain ⟨s, hs⟩ : ∃ s, Nat.log 2 m = s + 23 := ⟨Nat.log 2 m - 23, by omega⟩
    have hs1 : 1 ≤ s := by omega
    have hs2 : s ≤ 253 := by omega
    have hdvd : 2 ^ s ∣ m := by
      by_cases hsj : s ≤ j
      · exact dvd_trans (Nat.pow_dvd_pow 2 hsj) hdiv
      · have hsj2 : s = j + 1 := by omega
        have hmeq : m = 2 ^ 24 * 2 ^ j := by
          apply le_antisymm hle
          rw [hs, hsj2] at hlo
          calc 2 ^ 24 * 2 ^ j = 2 ^ (j + 1 + 23) := by rw [← pow_add]; congr 1; omega
            _ ≤ m := hlo
        rw [hmeq, hsj2, ← pow_add]
        exact Nat.pow_dvd_pow 2 (by omega)
    obtain ⟨q, hq⟩ := hdvd
    have hpos : 0 < 2 ^ s := pow_pos (by norm_num) s
    have hq1 : 8388608 ≤ q := by
      rw [hs, hq, pow_add] at hlo
      have := Nat.le_of_mul_le_mul_left hlo hpos
      norm_num at this
      exact this
    have hq2 : q < 16777216 := by
      rw [hs, hq] at hhi
      have h' : 2 ^ s * q < 2 ^ s * 2 ^ 24 := by
        calc 2 ^ s * q < 2 ^ (s + 23).succ := hhi
          _ = 2 ^ s * 2 ^ 24 := by rw [← pow_add]
      have := Nat.lt_of_mul_lt_mul_left h'
      norm_num at this
      exact this
    have hsh : Nat.log 2 m - 23 = s := by omega
    have hdivq : m / 2 ^ s = q := by rw [hq]; exact Nat.mul_div_cancel_left q hpos
    have hmodq : m % 2 ^ s = 0 := by rw [hq]; exact Nat.mul_mod_right _ _
    simp only [hsh, hdivq, hmodq, mul_zero]
    have hup : (if 2 ^ s < 0 ∨ (0 = 2 ^ s ∧ q % 2 = 1) then 1 else 0) = 0 := by
      have : ¬ (0 = 2 ^ s) := by omega
      simp [this]
    rw [hup]
    have hmin : min (s * 8388608 + q + 0) 2139095040 = s * 8388608 + q := by omega
    rw [hmin]
    refine ⟨by omega, ?_⟩
    have h1 : (s * 8388608 + q) / 8388608 % 256 = s + 1 := by omega
    have h2 : (s * 8388608 + q) % 8388608 = q - 8388608 := by omega
    rw [h1, h2]
    simp only [Nat.succ_ne_zero, if_false, Nat.add_sub_cancel]
    rw [hq]
    have : 8388608 + (q - 8388608) = q := by omega
    rw [this, mul_comm]


theorem Float32.natAbs_toScaled (x : Float32) : x.toScaled.natAbs = x.mag := by
  unfold Float32.toScaled
  split <;> simp

theorem Float32.finite_not_special (x : Float32) (h : x.isFinite = true) :
    x.isNaN = false ∧ x.isInf = false := by
  unfold Float32.isFinite at h
  unfold Float32.isNaN Float32.isInf
  simp at h
  simp [h]

theorem Float32.neg_expo (y : Float32) : (Float32.neg y).expo = y.expo := by
  unfold Float32.neg Float32.expo; simp only []; omega

theorem Float32.neg_frac (y : Float32) : (Float32.neg y).frac = y.frac := by
  unfold Float32.neg Float32.frac; simp only []; omega

theorem Float32.neg_signBit (y : Float32) : (Float32.neg y).signBit = 1 - y.signBit := by
  unfold Float32.neg Float32.signBit; simp only []; omega

theorem Float32.neg_mag (y : Float32) : (Float32.neg y).mag = y.mag := by
  unfold Float32.mag
  rw [Float32.neg_expo, Float32.neg_frac]

theorem Float32.neg_isFinite (y : Float32) : (Float32.neg y).isFinite = y.isFinite := by
  unfold Float32.isFinite
  rw [Float32.neg_expo]

theorem Float32.neg_toScaled (y : Float32) : (Float32.neg y).toScaled = - y.toScaled := by
  unfold Float32.toScaled
  rw [Float32.neg_signBit, Float32.neg_mag]
  have : y.signBit = 0 ∨ y.signBit = 1 := by unfold Float32.signBit; omega
  rcases this with h | h <;> simp [h]

theorem Float32.mk_pos (b m : Nat) (hb : b < 2139095040)
    (hm : (if b / 8388608 % 256 = 0 then b % 8388608
      else (8388608 + b % 8388608) * 2 ^ (b / 8388608 % 256 - 1)) = m) :
    (Float32.mk b).isFinite = true ∧ (Float32.mk b).mag = m ∧
    (Float32.mk b).toScaled = (m : Int) := by
  have he : (Float32.mk b).expo = b / 8388608 % 256 := rfl
  have hf : (Float32.mk b).frac = b % 8388608 := rfl
  have hs : (Float32.mk b).signBit = 0 := by unfold Float32.signBit; simp only []; omega
  have hmag : (Float32.mk b).mag = m := by
    unfold Float32.mag; rw [he, hf]; exact hm
  refine ⟨?_, hmag, ?_⟩
  · unfold Float32.isFinite; rw [he]; simp; omega
  · unfold Float32.toScaled; rw [hs, hmag]; simp

theorem Float32.mk_neg (b m : Nat) (hb : b < 2139095040)
    (hm : (if b / 8388608 % 256 = 0 then b % 8388608
      else (8388608 + b % 8388608) * 2 ^ (b / 8388608 % 256 - 1)) = m) :
    (Float32.mk (2147483648 + b)).isFinite = true ∧ (Float32.mk (2147483648 + b)).mag = m ∧
    (Float32.mk (2147483648 + b)).toScaled = - (m : Int) := by
  have he : (Float32.mk (2147483648 + b)).expo = b / 8388608 % 256 := by
    unfold Float32.expo; simp only []; omega
  have hf : (Float32.mk (2147483648 + b)).frac = b % 8388608 := by
    unfold Float32.frac; simp only []; omega
  have hs : (Float32.mk (2147483648 + b)).signBit = 1 := by
    unfold Float32.signBit; simp only []; omega
  have hmag : (Float32.mk (2147483648 + b)).mag = m := by
    unfold Float32.mag; rw [he, hf]; exact hm
  refine ⟨?_, hmag, ?_⟩
  · unfold Float32.isFinite; rw [he]; simp; omega
  · unfold Float32.toScaled; rw [hs, hmag]; simp

/-- Addition is exact on a grid: for finite multiples of `2^j` units whose exact sum
is at most `2^24` such multiples, `add` returns the exact sum. -/
theorem Float32.add_exact (j : Nat) (hj : j ≤ 252) (x y : Float32)
    (hx : Float32.Exact j x) (hy : Float32.Exact j y)
    (hb : (x.toScaled + y.toScaled).natAbs ≤ 2 ^ 24 * 2 ^ j) :
    Float32.Exact j (Float32.add x y) ∧
    (Float32.add x y).toScaled = x.toScaled + y.toScaled := by
  obtain ⟨hxf, hxd⟩ := hx
  obtain ⟨hyf, hyd⟩ := hy
  have hxs := Float32.finite_not_special x hxf
  have hys := Float32.finite_not_special y hyf
  have hdvd : 2 ^ j ∣ (x.toScaled + y.toScaled).natAbs := by
    have h1 : ((2 ^ j : Nat) : Int) ∣ x.toScaled :=
      Int.natCast_dvd.mpr (by rw [Float32.natAbs_toScaled]; exact hxd)
    have h2 : ((2 ^ j : Nat) : Int) ∣ y.toScaled :=
      Int.natCast_dvd.mpr (by rw [Float32.natAbs_toScaled]; exact hyd)
    exact Int.natCast_dvd.mp (dvd_add h1 h2)
  have hr := roundMag_exact _ j hj hdvd hb
  unfold Float32.add
  simp only [hxs.1, hxs.2, hys.1, hys.2, Bool.or_self, Bool.false_eq_true, if_false]
  by_cases h0 : x.toScaled + y.toScaled = 0
  · simp only [h0, if_true]
    have m1 : (Float32.mk 2147483648).mag = 0 := by decide
    have m0 : (Float32.mk 0).mag = 0 := by decide
    split
    · exact ⟨⟨by decide, by rw [m1]; exact dvd_zero _⟩, by decide⟩
    · exact ⟨⟨by decide, by rw [m0]; exact dvd_zero _⟩, by decide⟩
  · simp only [h0, if_false]
    by_cases hneg : x.toScaled + y.toScaled < 0
    · simp only [hneg, if_true]
      obtain ⟨f1, f2, f3⟩ := Float32.mk_neg _ _ hr.1 hr.2
      refine ⟨⟨f1, by rw [f2]; exact hdvd⟩, ?_⟩
      rw [f3]; omega
    · simp only [hneg, if_false]
      obtain ⟨f1, f2, f3⟩ := Float32.mk_pos _ _ hr.1 hr.2
      refine ⟨⟨f1, by rw [f2]; exact hdvd⟩, ?_⟩
      rw [f3]; omega

theorem Float32.sub_exact (j : Nat) (hj : j ≤ 252) (x y : Float32)
    (hx : Float32.Exact j x) (hy : Float32.Exact j y)
    (hb : (x.toScaled - y.toScaled).natAbs ≤ 2 ^ 24 * 2 ^ j) :
    Float32.Exact j (Float32.sub x y) ∧
    (Float32.sub x y).toScaled = x.toScaled - y.toScaled := by
  have hny : Float32.Exact j (Float32.neg y) :=
    ⟨by rw [Float32.neg_isFinite]; exact hy.1, by rw [Float32.neg_mag]; exact hy.2⟩
  have := Float32.add_exact j hj x (Float32.neg y) hx hny
    (by rw [Float32.neg_toScaled, ← sub_eq_add_neg]; exact hb)
  unfold Float32.sub
  refine ⟨this.1, ?_⟩
  rw [this.2, Float32.neg_toScaled, sub_eq_add_neg]


theorem received_cons (a : Bytes) (t : Transaction) (ts : List Transaction) :
    exactSum (received a (t :: ts)) =
      (if a = t.recipientAddress then t.value.toScaled else 0) + exactSum (received a ts) := by
  unfold exactSum received
  by_cases h : a = t.recipientAddress <;> simp [List.filter_cons, h]

theorem sent_cons (a : Bytes) (t : Transaction) (ts : List Transaction) :
    exactSum (sent a (t :: ts)) =
      (if a = t.senderAddress then t.value.toScaled else 0) + exactSum (sent a ts) := by
  unfold exactSum sent
  by_cases h : a = t.senderAddress <;> simp [List.filter_cons, h]

/-- One pass of the loop body is exact on a grid. -/
theorem tally_exact (a : Bytes) (j : Nat) (hj : j ≤ 252) (acc : Float32) (t : Transaction)
    (hacc : Float32.Exact j acc)
    (ht : (a = t.recipientAddress ∨ a = t.senderAddress) → Float32.Exact j t.value)
    (hb : acc.mag + weight a t ≤ 2 ^ 24 * 2 ^ j) :
    Float32.Exact j (tally a acc t) ∧
    (tally a acc t).toScaled = acc.toScaled
      + (if a = t.recipientAddress then t.value.toScaled else 0)
      - (if a = t.senderAddress then t.value.toScaled else 0) ∧
    (tally a acc t).mag ≤ acc.mag + weight a t := by
  have hA := Float32.natAbs_toScaled acc
  have hV := Float32.natAbs_toScaled t.value
  unfold tally weight at *
  by_cases hr : a = t.recipientAddress
  · have hv := ht (Or.inl hr)
    by_cases hs : a = t.senderAddress
    · simp only [if_pos hr, if_pos hs] at hb ⊢
      have h1 := Float32.add_exact j hj acc t.value hacc hv (by omega)
      have hM1 := Float32.natAbs_toScaled (acc.add t.value)
      have h2 := Float32.sub_exact j hj (acc.add t.value) t.value h1.1 hv (by
        rw [h1.2]; omega)
      have hM2 := Float32.natAbs_toScaled ((acc.add t.value).sub t.value)
      refine ⟨h2.1, by rw [h2.2, h1.2], ?_⟩
      rw [← hM2, h2.2, h1.2]; omega
    · simp only [if_pos hr, if_neg hs] at hb ⊢
      have h1 := Float32.add_exact j hj acc t.value hacc hv (by omega)
      have hM1 := Float32.natAbs_toScaled (acc.add t.value)
      refine ⟨h1.1, by rw [h1.2]; ring, ?_⟩
      rw [← hM1, h1.2]; omega
  · by_cases hs : a = t.senderAddress
    · have hv := ht (Or.inr hs)
      simp only [if_neg hr, if_pos hs] at hb ⊢
      have h2 := Float32.sub_exact j hj acc t.value hacc hv (by omega)
      have hM2 := Float32.natAbs_toScaled (acc.sub t.value)
      refine ⟨h2.1, by rw [h2.2]; ring, ?_⟩
      rw [← hM2, h2.2]; omega
    · simp only [if_neg hr, if_neg hs]
      exact ⟨hacc, by ring, by omega⟩

theorem tally_fold_exact (a : Bytes) (j : Nat) (hj : j ≤ 252) :
    ∀ (ts : List Transaction) (acc : Float32), Float32.Exact j acc →
      (∀ t ∈ ts, (a = t.recipientAddress ∨ a = t.senderAddress) → Float32.Exact j t.value) →
      acc.mag + (ts.map (weight a)).sum ≤ 2 ^ 24 * 2 ^ j →
      Float32.Exact j (ts.foldl (tally a) acc) ∧
      (ts.foldl (tally a) acc).toScaled =
        acc.toScaled + exactSum (received a ts) - exactSum (sent a ts) := by
  intro ts
  induction ts with
  | nil => intro acc hacc _ _; exact ⟨hacc, by simp [exactSum, received, sent]⟩
  | cons t ts ih =>
    intro acc hacc hts hb
    simp only [List.map_cons, List.sum_cons] at hb
    have h1 := tally_exact a j hj acc t hacc (hts t (List.mem_cons_self _ _)) (by omega)
    have h2 := ih (tally a acc t) h1.1 (fun u hu => hts u (List.mem_cons_of_mem _ hu))
      (by omega)
    rw [List.foldl_cons]
    refine ⟨h2.1, ?_⟩
    rw [h2.2, h1.2.1, received_cons, sent_cons]
    ring

theorem tally_fold_untouched (a : Bytes) :
    ∀ (ts : List Transaction) (acc : Float32),
      (∀ t ∈ ts, a ≠ t.recipientAddress ∧ a ≠ t.senderAddress) →
      ts.foldl (tally a) acc = acc := by
  intro ts
  induction ts with
  | nil => intro acc _; rfl
  | cons t ts ih =>
    intro acc h
    have ht := h t (List.mem_cons_self _ _)
    rw [List.foldl_cons]
    have : tally a acc t = acc := by
      unfold tally; simp [ht.1, ht.2]
    rw [this]
    exact ih acc (fun u hu => h u (List.mem_cons_of_mem _ hu))

theorem total_eq_fold (a : Bytes) :
    ∀ (chain : List Block) (acc : Float32),
      chain.foldl (fun totalValue b => (txList b.transactions).foldl (tally a) totalValue) acc
        = (committed chain).foldl (tally a) acc := by
  intro chain
  induction chain with
  | nil => intro acc; rfl
  | cons b bs ih =>
    intro acc
    simp only [List.foldl_cons, committed, List.foldl_append]
    exact ih _

/-- C10, as the code has it. `CalculateTotalAmount(a)` is the `float32` running total
over the committed transactions in chain order: from `+0`, each transaction adds its
amount when `a` is its recipient and then subtracts it when `a` is its sender, each
operation rounded. It is `+0` when `a` is in no committed transaction. It is the
exact net total, the sum received minus the sum sent (a transfer from `a` to `a` in
both), when the amounts that name `a` are finite multiples of one `2^j` units of
`2^-149` with `j ≤ 252` and their magnitudes add up to at most `2^24` such multiples. -/
theorem total_amount_running (bc : Blockchain) (a : Bytes) :
    CalculateTotalAmount bc a = (committed bc.chain).foldl (tally a) ⟨0⟩ ∧
    ((∀ t ∈ committed bc.chain, a ≠ t.recipientAddress ∧ a ≠ t.senderAddress) →
      CalculateTotalAmount bc a = ⟨0⟩) ∧
    (∀ j : Nat, j ≤ 252 →
      (∀ t ∈ committed bc.chain, (a = t.recipientAddress ∨ a = t.senderAddress) →
        t.value.isFinite = true ∧ 2 ^ j ∣ t.value.mag) →
      ((committed bc.chain).map (weight a)).sum ≤ 2 ^ 24 * 2 ^ j →
      (CalculateTotalAmount bc a).isFinite = true ∧
      (CalculateTotalAmount bc a).toScaled =
        exactSum (received a (committed bc.chain)) - exactSum (sent a (committed bc.chain))) := by
  have hfold : CalculateTotalAmount bc a = (committed bc.chain).foldl (tally a) ⟨0⟩ :=
    total_eq_fold a bc.chain ⟨0⟩
  refine ⟨hfold, ?_, ?_⟩
  · intro h
    rw [hfold]
    exact tally_fold_untouched a _ _ h
  · intro j hj hgrid hb
    have h0 : Float32.Exact j ⟨0⟩ := ⟨by decide, by
      have : (Float32.mk 0).mag = 0 := by decide
      rw [this]; exact dvd_zero _⟩
    have hm0 : (Float32.mk 0).mag = 0 := by decide
    have hz : (Float32.mk 0).toScaled = 0 := by decide
    have := tally_fold_exact a j hj (committed bc.chain) ⟨0⟩ h0 hgrid (by rw [hm0]; omega)
    rw [hfold]
    refine ⟨this.1.1, ?_⟩
    rw [this.2, hz]; ring

/-- The amended C10 on the example run: the total of "B" is exact on the grid of step
`2^149` units, that is, of whole amounts. -/
theorem total_amount_running_witness :
    (CalculateTotalAmount demoMined (ascii "B")).isFinite = true ∧
    (CalculateTotalAmount demoMined (ascii "B")).toScaled =
      exactSum (received (ascii "B") (committed demoMined.chain)) -
      exactSum (sent (ascii "B") (committed demoMined.chain)) :=
  (total_amount_running demoMined (ascii "B")).2.2 149 (by decide) (by decide) (by decide)

theorem rounding_run :
    run (newBlockchain demoOwner 1700000000000000707) roundingCalls = some roundingMined := by
  decide

/-- C10 as stated fails. On a reachable ledger whose one mined block moves 16777216.0
and 1.0 to "B", 16777216.0 back and 1.0 to "B" again, `CalculateTotalAmount("B")` is
1.0, while the sum received minus the sum sent is 0.0 when the two sums are taken in
`float32` and 2.0 when they are exact. -/
theorem total_amount_counterexample :
    run (newBlockchain demoOwner 1700000000000000707) roundingCalls = some roundingMined ∧
    CalculateTotalAmount roundingMined (ascii "B") = ⟨0x3F800000⟩ ∧
    Float32.sub (Float32.sum (received (ascii "B") (committed roundingMined.chain)))
      (Float32.sum (sent (ascii "B") (committed roundingMined.chain))) = ⟨0⟩ ∧
    (CalculateTotalAmount roundingMined (ascii "B")).toScaled = 1 * 2 ^ 149 ∧
    exactSum (received (ascii "B") (committed roundingMined.chain)) -
      exactSum (sent (ascii "B") (committed roundingMined.chain)) = 2 * 2 ^ 149 :=
  ⟨rounding_run, by decide, by decide, by decide, by decide⟩

/-! ## The difficulty test, snapshots and reachable chains -/

theorem Sha256.sum256_byte_lt (msg : List Nat) : ∀ x ∈ Sha256.sum256 msg, x < 256 := by
  intro x hx
  unfold Sha256.sum256 at hx
  simp only [Sha256.wordBytes, List.mem_append, List.mem_cons, List.mem_singleton,
    List.not_mem_nil, or_false] at hx
  have h256 : ∀ y : Nat, Nat.mod y 256 < 256 := fun y => Nat.mod_lt y (by norm_num)
  rcases hx with (((((((h | h) | h) | h) | h) | h) | h) | h) <;>
    rcases h with h | h | h | h <;> rw [h] <;> exact h256 _

theorem hexDigit_eq_zero_char (n : Nat) : hexDigit n = 48 ↔ n = 0 := by
  unfold hexDigit
  split <;> omega

theorem hexString_take_three (b0 b1 : Nat) (rest : Bytes) (h0 : b0 < 256) (h1 : b1 < 256) :
    (hexString (b0 :: b1 :: rest)).take 3 = [48, 48, 48] ↔ b0 = 0 ∧ b1 < 16 := by
  simp only [hexString, List.take_succ_cons, List.take_zero, List.cons.injEq, and_true,
    hexDigit_eq_zero_char]
  omega

/-- C19 (the string test at difficulty 3 is a byte test). For every nonce, previous
hash and transaction list, `ValidProof` at difficulty 3 returns the byte test of the
digest `h` of the candidate block: `h[0] = 0` and `h[1] < 16`. The digest has 32
bytes, each below 256, and the hexadecimal text writes each byte as two digits, the
high nibble first. -/
theorem validProof_three_is_byteTest (nonce : Int) (previousHash : Bytes)
    (transactions : Option (List Transaction)) :
    ValidProof nonce previousHash transactions 3 =
      some (byteTest (guessBlock nonce previousHash transactions).Hash) ∧
    (ValidProof nonce previousHash transactions 3 = some true ↔
      (guessBlock nonce previousHash transactions).Hash.get? 0 = some 0 ∧
      ∃ b1, (guessBlock nonce previousHash transactions).Hash.get? 1 = some b1 ∧ b1 < 16) ∧
    (guessBlock nonce previousHash transactions).Hash.length = 32 ∧
    (∀ x ∈ (guessBlock nonce previousHash transactions).Hash, x < 256) ∧
    (∀ (b : Nat) (bs : Bytes),
      hexString (b :: bs) = hexDigit (b / 16 % 16) :: hexDigit (b % 16) :: hexString bs) := by
  have hlen := Block.Hash_length (guessBlock nonce previousHash transactions)
  have hlt : ∀ x ∈ (guessBlock nonce previousHash transactions).Hash, x < 256 :=
    Sha256.sum256_byte_lt _
  have hhex := hexString_hash_length (guessBlock nonce previousHash transactions)
  have hv : ValidProof nonce previousHash transactions 3 =
      some (byteTest (guessBlock nonce previousHash transactions).Hash) := by
    unfold ValidProof
    simp only [hhex]
    generalize (guessBlock nonce previousHash transactions).Hash = h at hlen hlt
    match h, hlen, hlt with
    | b0 :: b1 :: rest, _, hlt =>
      have h0 : b0 < 256 := hlt b0 (by simp)
      have h1 : b1 < 256 := hlt b1 (by simp)
      have := hexString_take_three b0 b1 rest h0 h1
      simp only [byteTest]
      simp [List.replicate, this]
  refine ⟨hv, ?_, hlen, hlt, fun _ _ => rfl⟩
  rw [hv]
  generalize (guessBlock nonce previousHash transactions).Hash = h at hlen
  match h, hlen with
  | b0 :: b1 :: rest, _ => simp [byteTest]

/-- C11 (balances ignore the pending pool). Two ledgers with the same chain give every
address the same total, whatever their pools and owners; in particular
`addTransaction` changes the total of no address. -/
theorem total_ignores_pool :
    (∀ (bc1 bc2 : Blockchain) (a : Bytes), bc1.chain = bc2.chain →
      CalculateTotalAmount bc1 a = CalculateTotalAmount bc2 a) ∧
    (∀ (bc : Blockchain) (sender recipient : Bytes) (value : Float32) (a : Bytes),
      CalculateTotalAmount (addTransaction bc sender recipient value) a =
        CalculateTotalAmount bc a) := by
  refine ⟨?_, fun _ _ _ _ _ => rfl⟩
  intro bc1 bc2 a h
  unfold CalculateTotalAmount
  rw [h]

/-- C11 on the example run: the fresh ledger and the ledger with one pending
transaction have the same chain and give "B" the same total. -/
theorem total_ignores_pool_witness :
    CalculateTotalAmount demoGenesis (ascii "B") = CalculateTotalAmount demoPending (ascii "B") :=
  total_ignores_pool.1 demoGenesis demoPending (ascii "B") rfl

/-- C15 (CopyTransactionPool returns a value-equal snapshot). The copy has the length
of the pool, its `i`-th transaction has the sender, recipient and amount of the
`i`-th transaction of the pool, and the ledger after the call is the ledger before. -/
theorem copy_is_snapshot (bc : Blockchain) :
    (txList (CopyTransactionPool bc).1).length = (txList bc.transactionPool).length ∧
    (∀ i : Nat, i < (txList bc.transactionPool).length →
      ∃ c t, (txList (CopyTransactionPool bc).1).get? i = some c ∧
        (txList bc.transactionPool).get? i = some t ∧
        c.senderAddress = t.senderAddress ∧ c.recipientAddress = t.recipientAddress ∧
        c.value = t.value) ∧
    (CopyTransactionPool bc).2.transactionPool = bc.transactionPool ∧
    (CopyTransactionPool bc).2.chain = bc.chain ∧
    (CopyTransactionPool bc).2.blockchainAddress = bc.blockchainAddress := by
  rw [copy_eq]
  refine ⟨rfl, ?_, rfl, rfl, rfl⟩
  intro i hi
  refine ⟨(txList bc.transactionPool).get ⟨i, hi⟩, (txList bc.transactionPool).get ⟨i, hi⟩,
    ?_, ?_, rfl, rfl, rfl⟩
  · simp [txList_some, List.getElem?_eq_getElem hi]
  · simp [List.getElem?_eq_getElem hi]

/-- C16 (the chain is never empty after construction). On every ledger reachable from
`newBlockchain(addr)` the chain has at least one block, the index `len(chain)-1` is
in bounds and `LastBlock` returns the block at that index. -/
theorem chain_never_empty (addr : Bytes) (now : Int) (calls : List Call) (bc : Blockchain)
    (h : run (newBlockchain addr now) calls = some bc) :
    1 ≤ bc.chain.length ∧ bc.chain.length - 1 < bc.chain.length ∧
    ∃ b, LastBlock bc = some b ∧ bc.chain.get? (bc.chain.length - 1) = some b := by
  have hne := (reachable_sealed addr now calls bc h).1
  have hlen : 1 ≤ bc.chain.length := by
    cases hc : bc.chain with
    | nil => exact absurd hc hne
    | cons _ _ => simp
  refine ⟨hlen, by omega, ?_⟩
  have hlt : bc.chain.length - 1 < bc.chain.length := by omega
  refine ⟨bc.chain.get ⟨bc.chain.length - 1, hlt⟩, ?_, ?_⟩
  · unfold LastBlock
    have : ¬ bc.chain.length = 0 := by omega
    simp [this, List.getElem?_eq_getElem hlt]
  · simp [List.getElem?_eq_getElem hlt]

/-- C16 on the example run. -/
theorem chain_never_empty_witness :
    1 ≤ demoMined.chain.length ∧ demoMined.chain.length - 1 < demoMined.chain.length ∧
    ∃ b, LastBlock demoMined = some b ∧
      demoMined.chain.get? (demoMined.chain.length - 1) = some b :=
  chain_never_empty demoOwner 1700000000000008940 demoCalls demoMined demo_run

theorem get_mem_tail {α : Type} (l : List α) (i : Nat) (h1 : 1 ≤ i) (h2 : i < l.length) :
    l.get ⟨i, h2⟩ ∈ l.tail := by
  cases l with
  | nil => simp at h2
  | cons g rest =>
    cases i with
    | zero => omega
    | succ k =>
      simp only [List.get_cons_succ, List.tail_cons]
      exact List.get_mem _ _ _

/-- C17 (search and commit agree). On every ledger reachable from `newBlockchain` the
block at every index from 1 on passes `ValidProof` at difficulty 3 with its own
nonce, previous hash and transactions: the block with its timestamp replaced by 0 is
the candidate the search accepted, and its hexadecimal hash starts with "000". -/
theorem search_commit_agree (addr : Bytes) (now : Int) (calls : List Call) (bc : Blockchain)
    (h : run (newBlockchain addr now) calls = some bc)
    (i : Nat) (h1 : 1 ≤ i) (h2 : i < bc.chain.length) :
    ValidProof (bc.chain.get ⟨i, h2⟩).nonce (bc.chain.get ⟨i, h2⟩).prevHash
      (bc.chain.get ⟨i, h2⟩).transactions 3 = some true ∧
    guessBlock (bc.chain.get ⟨i, h2⟩).nonce (bc.chain.get ⟨i, h2⟩).prevHash
      (bc.chain.get ⟨i, h2⟩).transactions = { bc.chain.get ⟨i, h2⟩ with timestamp := 0 } ∧
    (hexString (Block.Hash { bc.chain.get ⟨i, h2⟩ with timestamp := 0 })).take 3 = ascii "000" := by
  have hmem := get_mem_tail bc.chain i h1 h2
  have hs := (reachable_sealed addr now calls bc h).2 _ hmem
  exact ⟨hs, rfl, (ValidProof_difficulty _ _ _).mp hs⟩

/-- C17 on the example run, at index 1. -/
theorem search_commit_agree_witness :
    ValidProof (demoMined.chain.get ⟨1, by decide⟩).nonce (demoMined.chain.get ⟨1, by decide⟩).prevHash
      (demoMined.chain.get ⟨1, by decide⟩).transactions 3 = some true ∧
    guessBlock (demoMined.chain.get ⟨1, by decide⟩).nonce
      (demoMined.chain.get ⟨1, by decide⟩).prevHash
      (demoMined.chain.get ⟨1, by decide⟩).transactions =
        { demoMined.chain.get ⟨1, by decide⟩ with timestamp := 0 } ∧
    (hexString (Block.Hash { demoMined.chain.get ⟨1, by decide⟩ with timestamp := 0 })).take 3
      = ascii "000" :=
  search_commit_agree demoOwner 1700000000000008940 demoCalls demoMined demo_run 1
    (by decide) (by decide)

theorem ValidProof_eq (nonce : Int) (previousHash : Bytes)
    (transactions : Option (List Transaction)) (d : Nat) (hd : d ≤ 64) :
    ValidProof nonce previousHash transactions d = some (decide
      ((hexString (guessBlock nonce previousHash transactions).Hash).take d =
        List.replicate d 48)) := by
  have hlen := hexString_hash_length (guessBlock nonce previousHash transactions)
  unfold ValidProof
  simp [hlen, not_lt.mpr hd]

/-- C18 (ValidProof is monotone in the difficulty). `ValidProof` is true at difficulty
0, and for `0 ≤ d < 64`, true at difficulty `d + 1` implies true at difficulty `d`. -/
theorem validProof_monotone (nonce : Int) (previousHash : Bytes)
    (transactions : Option (List Transaction)) :
    ValidProof nonce previousHash transactions 0 = some true ∧
    ∀ d : Int, 0 ≤ d → d < 64 →
      ValidProof nonce previousHash transactions (d + 1) = some true →
      ValidProof nonce previousHash transactions d = some true := by
  constructor
  · have := ValidProof_eq nonce previousHash transactions 0 (by omega)
    simpa using this
  · intro d h0 h1 h
    obtain ⟨k, rfl⟩ : ∃ k : Nat, d = k := ⟨d.toNat, by omega⟩
    have hk : k + 1 ≤ 64 := by omega
    have e1 := ValidProof_eq nonce previousHash transactions (k + 1) hk
    have e0 := ValidProof_eq nonce previousHash transactions k (by omega)
    push_cast at e1
    rw [e1] at h
    rw [e0]
    simp only [Option.some.injEq, decide_eq_true_eq] at h ⊢
    have hlen := hexString_hash_length (guessBlock nonce previousHash transactions)
    rw [take_eq_replicate_iff 48 (k + 1) _ (by rw [hlen]; exact hk)] at h
    rw [take_eq_replicate_iff 48 k _ (by rw [hlen]; omega)]
    intro i hi
    exact h i (by omega)

/-- C18 on the candidate of the example run: true at difficulty 3, hence at 2. -/
theorem validProof_monotone_witness :
    ValidProof 2 demoBlock.prevHash demoBlock.transactions 2 = some true :=
  (validProof_monotone 2 demoBlock.prevHash demoBlock.transactions).2 2 (by decide) (by decide)
    ((reachable_sealed demoOwner 1700000000000008940 demoCalls demoMined demo_run).2
      demoBlock (by decide))

/-! ## Determinism of the hash -/

theorem SameContent_txList {b1 b2 : Block} (h : SameContent b1 b2) :
    txList b1.transactions = txList b2.transactions := by
  obtain ⟨_, _, _, hlen, hel⟩ := h
  apply List.ext_get hlen
  intro i h1 h2
  have e1 : (txList b1.transactions).get? i = some ((txList b1.transactions).get ⟨i, h1⟩) := by
    simp [List.getElem?_eq_getElem h1]
  have e2 : (txList b2.transactions).get? i = some ((txList b2.transactions).get ⟨i, h2⟩) := by
    simp [List.getElem?_eq_getElem h2]
  obtain ⟨hs, hr, hv⟩ := hel i _ _ e1 e2
  cases hx : (txList b1.transactions).get ⟨i, h1⟩
  cases hy : (txList b2.transactions).get ⟨i, h2⟩
  rw [hx, hy] at hs hr hv
  simp only [] at hs hr hv
  rw [hs, hr, hv]

theorem zero_block_json : zeroBlock.MarshalJSON = some (ascii
    "\x7b\"nonce\":0,\"prevHash\":[0,0,0,0,0,0,0,0,0,0,0,0,0,0,0,0,0,0,0,0,0,0,0,0,0,0,0,0,0,0,0,0],\"timestamp\":0,\"transactions\":null\x7d") := by
  decide

theorem empty_block_json : emptyBlock.MarshalJSON = some (ascii
    "\x7b\"nonce\":0,\"prevHash\":[0,0,0,0,0,0,0,0,0,0,0,0,0,0,0,0,0,0,0,0,0,0,0,0,0,0,0,0,0,0,0,0],\"timestamp\":0,\"transactions\":[]\x7d") := by
  decide

theorem committed_append (bs cs : List Block) :
    committed (bs ++ cs) = committed bs ++ committed cs := by
  induction bs with
  | nil => rfl
  | cons b bs ih => simp [committed, ih]

theorem CalculateTotalAmount_eq (bc : Blockchain) (a : Bytes) :
    CalculateTotalAmount bc a = (committed bc.chain).foldl (tally a) ⟨0⟩ :=
  total_eq_fold a bc.chain ⟨0⟩

theorem run_mine_eq (bc : Blockchain) {bc2 : Blockchain} {now : Int} {fuel : Nat}
    (h : run bc [Call.mine now fuel] = some bc2) : ∃ r, Mining now fuel bc = some (r, bc2) := by
  simp only [run, step] at h
  cases hm : Mining now fuel bc with
  | none => simp [hm] at h
  | some p =>
    obtain ⟨r, bc3⟩ := p
    simp [hm] at h
    exact ⟨r, by rw [h]⟩

/-- The total after a returning `Mining`: the total before, updated by the pending
transactions in pool order and then the reward. -/
theorem Mining_total {now : Int} {fuel : Nat} {bc bc2 : Blockchain} {r : Bool}
    (h : Mining now fuel bc = some (r, bc2)) (a : Bytes) :
    CalculateTotalAmount bc2 a =
      (txList bc.transactionPool ++ [rewardOf bc]).foldl (tally a) (CalculateTotalAmount bc a) ∧
    bc2.chain.length = bc.chain.length + 1 ∧
    committed bc2.chain = committed bc.chain ++ (txList bc.transactionPool ++ [rewardOf bc]) := by
  obtain ⟨last, nonce, _, _, _, rfl⟩ := Mining_eq_some h
  have hc : committed (bc.chain ++ [newBlock now nonce last.Hash
      (some (txList bc.transactionPool ++
        [NewTransaction MINING_SENDER bc.blockchainAddress MINING_REWARD]))]) =
      committed bc.chain ++ (txList bc.transactionPool ++ [rewardOf bc]) := by
    rw [committed_append]
    simp [committed, newBlock, txList_some, rewardOf]
  refine ⟨?_, by simp, hc⟩
  rw [CalculateTotalAmount_eq, CalculateTotalAmount_eq]
  simp only []
  rw [hc, List.foldl_append]

theorem one_exact : Float32.Exact 149 ⟨0x3F800000⟩ ∧ (Float32.mk 0x3F800000).toScaled = 2 ^ 149 := by
  refine ⟨⟨by decide, ?_⟩, by decide⟩
  have : (Float32.mk 0x3F800000).mag = 2 ^ 149 := by decide
  rw [this]

/-- The owner's total after a returning `Mining` that settles no transaction of the
owner: the `float32` sum of the total before and 1.0. -/
theorem Mining_owner_total {now : Int} {fuel : Nat} {bc bc2 : Blockchain} {r : Bool}
    (h : Mining now fuel bc = some (r, bc2))
    (hown : bc.blockchainAddress ≠ MINING_SENDER)
    (hpool : ∀ t ∈ txList bc.transactionPool,
      bc.blockchainAddress ≠ t.recipientAddress ∧ bc.blockchainAddress ≠ t.senderAddress) :
    CalculateTotalAmount bc2 bc.blockchainAddress =
      (CalculateTotalAmount bc bc.blockchainAddress).add ⟨0x3F800000⟩ := by
  rw [(Mining_total h bc.blockchainAddress).1, List.foldl_append,
    tally_fold_untouched _ _ _ hpool]
  simp [rewardOf, NewTransaction, tally, hown, MINING_REWARD]

theorem scenario_run1 :
    run (newBlockchain (ascii "addr1") 1700000000000008940)
      (scenarioCalls1 1700000000000009942 3) = some scenarioMined1 := by
  decide

theorem scenario_run2 :
    run scenarioMined1 (scenarioCalls2 1700000000000014942 1) = some scenarioMined2 := by
  decide

theorem genesis_committed (addr : Bytes) (now : Int) :
    committed (newBlockchain addr now).chain = [] ∧ (newBlockchain addr now).chain.length = 1 ∧
    (newBlockchain addr now).transactionPool = some [] ∧
    (newBlockchain addr now).blockchainAddress = addr := by
  refine ⟨rfl, rfl, rfl, rfl⟩

/-- The scenario of the specification, for every clock value and every bound on the
two searches under which both `Mining` calls return. -/
theorem scenario_totals (now0 now1 now2 : Int) (fuel1 fuel2 : Nat) (bc1 bc2 : Blockchain)
    (h1 : run (newBlockchain (ascii "addr1") now0) (scenarioCalls1 now1 fuel1) = some bc1)
    (h2 : run bc1 (scenarioCalls2 now2 fuel2) = some bc2) :
    bc1.chain.length = 2 ∧ txList bc1.transactionPool = [] ∧
    CalculateTotalAmount bc1 (ascii "addr1") = ⟨0x3F800000⟩ ∧
    bc2.chain.length = 3 ∧ txList bc2.transactionPool = [] ∧
    CalculateTotalAmount bc2 (ascii "addr1") = ⟨0x40000000⟩ ∧
    CalculateTotalAmount bc2 (ascii "F") = ⟨0xC0B66666⟩ ∧
    CalculateTotalAmount bc2 (ascii "D") = ⟨0x41200000⟩ := by
  have hg := genesis_committed (ascii "addr1") now0
  obtain ⟨r1, hm1⟩ := run_mine_eq (addTransaction (newBlockchain (ascii "addr1") now0)
    (ascii "A") (ascii "B") ⟨0x3F800000⟩) (by simpa [scenarioCalls1, run, step] using h1)
  have t1 := Mining_total hm1
  obtain ⟨_, _, _, _, _, hbc1⟩ := Mining_eq_some hm1
  have hpool1 : bc1.transactionPool = some [] := by rw [hbc1]
  have hown1 : bc1.blockchainAddress = ascii "addr1" := by rw [hbc1]; rfl
  have hc1 : committed bc1.chain =
      [NewTransaction (ascii "A") (ascii "B") ⟨0x3F800000⟩,
       NewTransaction MINING_SENDER (ascii "addr1") MINING_REWARD] := by
    rw [(t1 (ascii "addr1")).2.2]
    simp [addTransaction, hg.1, hg.2.2.1, txList, rewardOf]
    rw [hg.2.2.2]
  have hl1 : bc1.chain.length = 2 := by
    rw [(t1 (ascii "addr1")).2.1]; simp [addTransaction, hg.2.1]
  obtain ⟨r2, hm2⟩ := run_mine_eq (addTransaction (addTransaction bc1
    (ascii "C") (ascii "D") ⟨0x41200000⟩) (ascii "F") (ascii "H") ⟨0x40B66666⟩)
    (by simpa [scenarioCalls2, run, step] using h2)
  have t2 := Mining_total hm2
  obtain ⟨_, _, _, _, _, hbc2⟩ := Mining_eq_some hm2
  have hc2 : committed bc2.chain =
      [NewTransaction (ascii "A") (ascii "B") ⟨0x3F800000⟩,
       NewTransaction MINING_SENDER (ascii "addr1") MINING_REWARD,
       NewTransaction (ascii "C") (ascii "D") ⟨0x41200000⟩,
       NewTransaction (ascii "F") (ascii "H") ⟨0x40B66666⟩,
       NewTransaction MINING_SENDER (ascii "addr1") MINING_REWARD] := by
    rw [(t2 (ascii "addr1")).2.2]
    simp [addTransaction, hc1, hpool1, hown1, txList, rewardOf]
  have hl2 : bc2.chain.length = 3 := by
    rw [(t2 (ascii "addr1")).2.1]; simp [addTransaction, hl1]
  refine ⟨hl1, by rw [hpool1]; rfl, ?_, hl2, by rw [hbc2]; rfl, ?_, ?_, ?_⟩
  · rw [CalculateTotalAmount_eq, hc1]; decide
  · rw [CalculateTotalAmount_eq, hc2]; decide
  · rw [CalculateTotalAmount_eq, hc2]; decide
  · rw [CalculateTotalAmount_eq, hc2]; decide

theorem stuck_run1 :
    run (newBlockchain (ascii "addr1") 1700000000000000888)
      [Call.add (ascii "A") (ascii "addr1") ⟨0x4B800000⟩, Call.mine 1700000000000012487 1]
      = some stuckMined1 := by
  decide

theorem stuck_mining2 : Mining 1700000000000017487 1 stuckMined1 = some (true, stuckMined2) := by
  decide

/-- C13, as the code has it. When `Mining` returns, the total of every address is the
total before, updated in pool order by each pending transaction and then by the
reward, and the chain is one block longer. If the owner is not "THE BLOCKCHAIN" and
is in no pending transaction, the owner's total after is the `float32` sum of the
total before and 1.0; it is the total before plus 1 exactly when the total before is
a finite whole number and the sum has magnitude at most 16777216. The scenario of
the specification holds for every clock value and every run of its calls that
returns. -/
theorem mining_settles_pool :
    (∀ (now : Int) (fuel : Nat) (bc bc2 : Blockchain) (r : Bool) (a : Bytes),
      Mining now fuel bc = some (r, bc2) →
      CalculateTotalAmount bc2 a =
        (txList bc.transactionPool ++
          [NewTransaction (ascii "THE BLOCKCHAIN") bc.blockchainAddress ⟨0x3F800000⟩]).foldl
          (tally a) (CalculateTotalAmount bc a) ∧
      bc2.chain.length = bc.chain.length + 1) ∧
    (∀ (now : Int) (fuel : Nat) (bc bc2 : Blockchain) (r : Bool),
      Mining now fuel bc = some (r, bc2) →
      bc.blockchainAddress ≠ ascii "THE BLOCKCHAIN" →
      (∀ t ∈ txList bc.transactionPool,
        bc.blockchainAddress ≠ t.recipientAddress ∧ bc.blockchainAddress ≠ t.senderAddress) →
      CalculateTotalAmount bc2 bc.blockchainAddress =
        (CalculateTotalAmount bc bc.blockchainAddress).add ⟨0x3F800000⟩ ∧
      bc2.chain.length = bc.chain.length + 1 ∧
      ((CalculateTotalAmount bc bc.blockchainAddress).isFinite = true →
        2 ^ 149 ∣ (CalculateTotalAmount bc bc.blockchainAddress).mag →
        ((CalculateTotalAmount bc bc.blockchainAddress).toScaled + 2 ^ 149).natAbs
          ≤ 2 ^ 24 * 2 ^ 149 →
        (CalculateTotalAmount bc2 bc.blockchainAddress).toScaled =
          (CalculateTotalAmount bc bc.blockchainAddress).toScaled + 2 ^ 149)) ∧
    (∀ (now0 now1 now2 : Int) (fuel1 fuel2 : Nat) (bc1 bc2 : Blockchain),
      run (newBlockchain (ascii "addr1") now0) (scenarioCalls1 now1 fuel1) = some bc1 →
      run bc1 (scenarioCalls2 now2 fuel2) = some bc2 →
      bc1.chain.length = 2 ∧ txList bc1.transactionPool = [] ∧
      CalculateTotalAmount bc1 (ascii "addr1") = ⟨0x3F800000⟩ ∧
      bc2.chain.length = 3 ∧ txList bc2.transactionPool = [] ∧
      CalculateTotalAmount bc2 (ascii "addr1") = ⟨0x40000000⟩ ∧
      CalculateTotalAmount bc2 (ascii "F") = ⟨0xC0B66666⟩ ∧
      CalculateTotalAmount bc2 (ascii "D") = ⟨0x41200000⟩) := by
  refine ⟨?_, ?_, scenario_totals⟩
  · intro now fuel bc bc2 r a h
    exact ⟨(Mining_total h a).1, (Mining_total h a).2.1⟩
  · intro now fuel bc bc2 r h hown hpool
    have ht := Mining_owner_total h hown hpool
    refine ⟨ht, (Mining_total h bc.blockchainAddress).2.1, ?_⟩
    intro hfin hdvd hb
    rw [ht]
    have := Float32.add_exact 149 (by omega) (CalculateTotalAmount bc bc.blockchainAddress)
      ⟨0x3F800000⟩ ⟨hfin, hdvd⟩ one_exact.1 (by rw [one_exact.2]; exact hb)
    rw [this.2, one_exact.2]

/-- C13 on the example run and on the scenario of the specification. The `Mining` of
the example run gives "B" the total of its pending credit, and raises the total of
the owner, who is in no pending transaction, from 0 by exactly 1. The scenario, run
at clock values for which the two searches return at once, gives chain lengths 2 and
3, empty pools, and the totals 1.0 and 2.0 of "addr1", -5.7 of "F" and 10.0 of "D". -/
theorem mining_settles_pool_witness :
    (CalculateTotalAmount demoMined (ascii "B") =
        (txList demoPending.transactionPool ++
          [NewTransaction (ascii "THE BLOCKCHAIN") demoPending.blockchainAddress
            ⟨0x3F800000⟩]).foldl (tally (ascii "B"))
          (CalculateTotalAmount demoPending (ascii "B")) ∧
      demoMined.chain.length = demoPending.chain.length + 1) ∧
    (CalculateTotalAmount demoMined demoPending.blockchainAddress =
        (CalculateTotalAmount demoPending demoPending.blockchainAddress).add ⟨0x3F800000⟩ ∧
      (CalculateTotalAmount demoMined demoPending.blockchainAddress).toScaled =
        (CalculateTotalAmount demoPending demoPending.blockchainAddress).toScaled + 2 ^ 149) ∧
    (scenarioMined1.chain.length = 2 ∧ txList scenarioMined1.transactionPool = [] ∧
      CalculateTotalAmount scenarioMined1 (ascii "addr1") = ⟨0x3F800000⟩ ∧
      scenarioMined2.chain.length = 3 ∧ txList scenarioMined2.transactionPool = [] ∧
      CalculateTotalAmount scenarioMined2 (ascii "addr1") = ⟨0x40000000⟩ ∧
      CalculateTotalAmount scenarioMined2 (ascii "F") = ⟨0xC0B66666⟩ ∧
      CalculateTotalAmount scenarioMined2 (ascii "D") = ⟨0x41200000⟩) :=
  ⟨mining_settles_pool.1 1700000000000009999 3 demoPending demoMined true (ascii "B")
      demo_mining,
   ⟨(mining_settles_pool.2.1 1700000000000009999 3 demoPending demoMined true demo_mining
      (by decide) (by decide)).1,
    (mining_settles_pool.2.1 1700000000000009999 3 demoPending demoMined true demo_mining
      (by decide) (by decide)).2.2 (by decide) (by decide) (by decide)⟩,
   mining_settles_pool.2.2 1700000000000008940 1700000000000009942 1700000000000014942 3 1
      scenarioMined1 scenarioMined2 scenario_run1 scenario_run2⟩

/-- C13 as stated fails. On a reachable ledger whose owner "addr1" holds 16777216.0, is
not "THE BLOCKCHAIN" and is in no pending transaction (the pool is empty), a
returning `Mining` leaves the owner's total at 16777216.0: the reward of 1.0 is lost
in the rounding of the `float32` sum. -/
theorem reward_lost_counterexample :
    run (newBlockchain (ascii "addr1") 1700000000000000888)
      [Call.add (ascii "A") (ascii "addr1") ⟨0x4B800000⟩, Call.mine 1700000000000012487 1]
      = some stuckMined1 ∧
    Mining 1700000000000017487 1 stuckMined1 = some (true, stuckMined2) ∧
    stuckMined1.blockchainAddress ≠ ascii "THE BLOCKCHAIN" ∧
    txList stuckMined1.transactionPool = [] ∧
    CalculateTotalAmount stuckMined1 stuckMined1.blockchainAddress = ⟨0x4B800000⟩ ∧
    CalculateTotalAmount stuckMined2 stuckMined1.blockchainAddress = ⟨0x4B800000⟩ ∧
    (CalculateTotalAmount stuckMined2 stuckMined1.blockchainAddress).toScaled ≠
      (CalculateTotalAmount stuckMined1 stuckMined1.blockchainAddress).toScaled
        + (Float32.mk 0x3F800000).toScaled :=
  ⟨stuck_run1, stuck_mining2, by decide, by decide, by decide, by decide, by decide⟩

/-! ## Conservation -/

theorem sum_ite_le {α : Type} [DecidableEq α] (x : α) (m : Nat) :
    ∀ l : List α, l.Nodup → (l.map fun a => if a = x then m else 0).sum ≤ m := by
  intro l
  induction l with
  | nil => intro _; simp
  | cons b l ih =>
    intro hnd
    rw [List.nodup_cons] at hnd
    simp only [List.map_cons, List.sum_cons]
    by_cases hb : b = x
    · subst hb
      have hz : (l.map fun a => if a = b then m else 0).sum = 0 := by
        apply List.sum_eq_zero
        intro y hy
        rw [List.mem_map] at hy
        obtain ⟨a, ha, rfl⟩ := hy
        have : a ≠ b := fun h => hnd.1 (h ▸ ha)
        simp [this]
      simp [hz]
    · simp only [hb, if_false, zero_add]
      exact ih hnd.2

theorem sum_ite_eq {α : Type} [DecidableEq α] (x : α) (s : Int) :
    ∀ l : List α, l.Nodup → x ∈ l → (l.map fun a => if a = x then s else 0).sum = s := by
  intro l
  induction l with
  | nil => intro _ h; simp at h
  | cons b l ih =>
    intro hnd hx
    rw [List.nodup_cons] at hnd
    simp only [List.map_cons, List.sum_cons]
    by_cases hb : b = x
    · subst hb
      have hz : (l.map fun a => if a = b then s else 0).sum = 0 := by
        apply List.sum_eq_zero
        intro y hy
        rw [List.mem_map] at hy
        obtain ⟨a, ha, rfl⟩ := hy
        have : a ≠ b := fun h => hnd.1 (h ▸ ha)
        simp [this]
      simp [hz]
    · simp only [hb, if_false, zero_add]
      have : x ∈ l := by
        rcases List.mem_cons.mp hx with h | h
        · exact absurd h.symm hb
        · exact h
      exact ih hnd.2 this

theorem weight_sum_le (l : List Bytes) (hnd : l.Nodup) (t : Transaction) :
    (l.map fun a => weight a t).sum ≤ 2 * t.value.mag := by
  have h1 := sum_ite_le t.recipientAddress t.value.mag l hnd
  have h2 := sum_ite_le t.senderAddress t.value.mag l hnd
  have : (l.map fun a => weight a t).sum =
      (l.map fun a => if a = t.recipientAddress then t.value.mag else 0).sum +
      (l.map fun a => if a = t.senderAddress then t.value.mag else 0).sum := by
    rw [← List.sum_map_add]
    rfl
  omega

theorem sum_map_sub_int {α : Type} (f g : α → Int) (l : List α) :
    (l.map fun a => f a - g a).sum = (l.map f).sum - (l.map g).sum := by
  induction l with
  | nil => simp
  | cons c l ih => simp only [List.map_cons, List.sum_cons]; rw [ih]; ring

theorem netOne_sum (l : List Bytes) (hnd : l.Nodup) (t : Transaction)
    (hs : t.senderAddress ∈ l) (hr : t.recipientAddress ∈ l) :
    (l.map fun a => netOne a t).sum = 0 := by
  have h1 := sum_ite_eq t.recipientAddress t.value.toScaled l hnd hr
  have h2 := sum_ite_eq t.senderAddress t.value.toScaled l hnd hs
  have : (l.map fun a => netOne a t).sum =
      (l.map fun a => if a = t.recipientAddress then t.value.toScaled else 0).sum -
      (l.map fun a => if a = t.senderAddress then t.value.toScaled else 0).sum :=
    sum_map_sub_int _ _ l
  rw [this, h1, h2]; ring

theorem net_cons (a : Bytes) (t : Transaction) (ts : List Transaction) :
    net a (t :: ts) = netOne a t + net a ts := by
  unfold net netOne
  rw [received_cons, sent_cons]; ring

theorem net_nil (a : Bytes) : net a [] = 0 := by
  simp [net, exactSum, received, sent]

theorem netOne_natAbs_le (a : Bytes) (t : Transaction) : (netOne a t).natAbs ≤ weight a t := by
  have hV := Float32.natAbs_toScaled t.value
  unfold netOne weight
  by_cases hr : a = t.recipientAddress <;> by_cases hs : a = t.senderAddress <;>
    simp only [if_pos, if_neg, hr, hs, not_false_eq_true] <;> omega

theorem net_natAbs_le (a : Bytes) (ts : List Transaction) :
    (net a ts).natAbs ≤ (ts.map (weight a)).sum := by
  induction ts with
  | nil => simp [net_nil]
  | cons t ts ih =>
    rw [net_cons]
    simp only [List.map_cons, List.sum_cons]
    have := netOne_natAbs_le a t
    omega

theorem net_sum_zero (l : List Bytes) (hnd : l.Nodup) (ts : List Transaction)
    (hall : ∀ t ∈ ts, t.senderAddress ∈ l ∧ t.recipientAddress ∈ l) :
    (l.map fun a => net a ts).sum = 0 := by
  induction ts with
  | nil => simp [net_nil]
  | cons t ts ih =>
    have ht := hall t (List.mem_cons_self _ _)
    have h1 := netOne_sum l hnd t ht.1 ht.2
    have h2 := ih (fun u hu => hall u (List.mem_cons_of_mem _ hu))
    have : (l.map fun a => net a (t :: ts)).sum =
        (l.map fun a => netOne a t).sum + (l.map fun a => net a ts).sum := by
      rw [← List.sum_map_add]
      congr 1
      apply List.map_congr_left
      intro a _
      exact net_cons a t ts
    rw [this, h1, h2]; rfl

theorem weight_total_le (l : List Bytes) (hnd : l.Nodup) (ts : List Transaction) :
    (l.map fun a => (ts.map (weight a)).sum).sum ≤ 2 * volume ts := by
  induction ts with
  | nil => simp [volume]
  | cons t ts ih =>
    have h1 := weight_sum_le l hnd t
    have : (l.map fun a => ((t :: ts).map (weight a)).sum).sum =
        (l.map fun a => weight a t).sum + (l.map fun a => (ts.map (weight a)).sum).sum := by
      rw [← List.sum_map_add]
      congr 1
    have hv : volume (t :: ts) = t.value.mag + volume ts := by
      simp [volume]
    rw [this, hv]; omega

theorem weight_le_volume (a : Bytes) (ts : List Transaction) :
    (ts.map (weight a)).sum ≤ 2 * volume ts := by
  induction ts with
  | nil => simp [volume]
  | cons t ts ih =>
    have hv : volume (t :: ts) = t.value.mag + volume ts := by
      simp [volume]
    simp only [List.map_cons, List.sum_cons]
    have : weight a t ≤ 2 * t.value.mag := by
      unfold weight; split <;> split <;> omega
    rw [hv]; omega

/-- The `float32` sum of a list is exact on a grid. -/
theorem sum_fold_exact (j : Nat) (hj : j ≤ 252) :
    ∀ (vs : List Float32) (acc : Float32), Float32.Exact j acc →
      (∀ v ∈ vs, Float32.Exact j v) →
      acc.mag + (vs.map Float32.mag).sum ≤ 2 ^ 24 * 2 ^ j →
      Float32.Exact j (vs.foldl Float32.add acc) ∧
      (vs.foldl Float32.add acc).toScaled = acc.toScaled + exactSum vs := by
  intro vs
  induction vs with
  | nil => intro acc hacc _ _; exact ⟨hacc, by simp [exactSum]⟩
  | cons v vs ih =>
    intro acc hacc hvs hb
    simp only [List.map_cons, List.sum_cons] at hb
    have hA := Float32.natAbs_toScaled acc
    have hV := Float32.natAbs_toScaled v
    have h1 := Float32.add_exact j hj acc v hacc (hvs v (List.mem_cons_self _ _)) (by omega)
    have hM := Float32.natAbs_toScaled (acc.add v)
    have h2 := ih (acc.add v) h1.1 (fun u hu => hvs u (List.mem_cons_of_mem _ hu))
      (by rw [← hM, h1.2]; omega)
    rw [List.foldl_cons]
    refine ⟨h2.1, ?_⟩
    rw [h2.2, h1.2]
    simp only [exactSum, List.map_cons, List.sum_cons]
    ring

theorem mem_mentioned (ts : List Transaction) :
    ∀ t ∈ ts, t.senderAddress ∈ mentioned ts ∧ t.recipientAddress ∈ mentioned ts := by
  induction ts with
  | nil => intro t h; simp at h
  | cons u ts ih =>
    intro t ht
    rcases List.mem_cons.mp ht with h | h
    · subst h; simp [mentioned]
    · have := ih t h
      simp [mentioned, this.1, this.2]

/-- Conservation on a grid, over any list of distinct addresses that holds every
sender and recipient. -/
theorem conservation_exact (bc : Blockchain) (l : List Bytes) (j : Nat) (hj : j ≤ 252)
    (hnd : l.Nodup)
    (hall : ∀ t ∈ committed bc.chain, t.senderAddress ∈ l ∧ t.recipientAddress ∈ l)
    (hgrid : ∀ t ∈ committed bc.chain, t.value.isFinite = true ∧ 2 ^ j ∣ t.value.mag)
    (hb : 2 * volume (committed bc.chain) ≤ 2 ^ 24 * 2 ^ j) :
    (Float32.sum (l.map (CalculateTotalAmount bc))).isFinite = true ∧
    (Float32.sum (l.map (CalculateTotalAmount bc))).toScaled = 0 ∧
    exactSum (l.map (CalculateTotalAmount bc)) = 0 := by
  have h0 : Float32.Exact j ⟨0⟩ := ⟨by decide, by
    have : (Float32.mk 0).mag = 0 := by decide
    rw [this]; exact dvd_zero _⟩
  have hm0 : (Float32.mk 0).mag = 0 := by decide
  have hz : (Float32.mk 0).toScaled = 0 := by decide
  have htot : ∀ a, Float32.Exact j (CalculateTotalAmount bc a) ∧
      (CalculateTotalAmount bc a).toScaled = net a (committed bc.chain) := by
    intro a
    have := tally_fold_exact a j hj (committed bc.chain) ⟨0⟩ h0 (fun t ht _ => hgrid t ht)
      (by rw [hm0]; have := weight_le_volume a (committed bc.chain); omega)
    have e : CalculateTotalAmount bc a = (committed bc.chain).foldl (tally a) ⟨0⟩ :=
      total_eq_fold a bc.chain ⟨0⟩
    rw [e]
    refine ⟨this.1, ?_⟩
    rw [this.2, hz]; unfold net; ring
  have hex : exactSum (l.map (CalculateTotalAmount bc)) = 0 := by
    unfold exactSum
    rw [List.map_map]
    have : (l.map (Float32.toScaled ∘ CalculateTotalAmount bc)) =
        l.map fun a => net a (committed bc.chain) := by
      apply List.map_congr_left
      intro a _
      exact (htot a).2
    rw [this]
    exact net_sum_zero l hnd _ hall
  have hmag : ((l.map (CalculateTotalAmount bc)).map Float32.mag).sum ≤
      2 * volume (committed bc.chain) := by
    rw [List.map_map]
    have hle : (l.map (Float32.mag ∘ CalculateTotalAmount bc)).sum ≤
        (l.map fun a => ((committed bc.chain).map (weight a)).sum).sum := by
      apply List.sum_le_sum
      intro a _
      simp only [Function.comp]
      rw [← Float32.natAbs_toScaled, (htot a).2]
      exact net_natAbs_le a _
    exact le_trans hle (weight_total_le l hnd _)
  have := sum_fold_exact j hj (l.map (CalculateTotalAmount bc)) ⟨0⟩ h0
    (by
      intro v hv
      rw [List.mem_map] at hv
      obtain ⟨a, _, rfl⟩ := hv
      exact (htot a).1)
    (by rw [hm0]; omega)
  unfold Float32.sum
  refine ⟨this.1.1, ?_, hex⟩
  rw [this.2, hz, hex]; rfl

/-- C12, as the code has it. For every chain whose committed amounts are finite
multiples of one `2^j` units of `2^-149` with `j ≤ 252`, and whose magnitudes, taken
twice, add up to at most `2^24` such multiples, the totals of the distinct addresses
that are sender or recipient of a committed transaction cancel: their `float32` sum,
in any order, is a finite zero, and their exact sum is 0. (A reward transaction is
no exception: its sender "THE BLOCKCHAIN" is one of the addresses.) -/
theorem balance_conservation (bc : Blockchain) (l : List Bytes) (j : Nat)
    (hl : l.Perm (addresses (committed bc.chain))) (hj : j ≤ 252)
    (hgrid : ∀ t ∈ committed bc.chain, t.value.isFinite = true ∧ 2 ^ j ∣ t.value.mag)
    (hb : 2 * volume (committed bc.chain) ≤ 2 ^ 24 * 2 ^ j) :
    (Float32.sum (l.map (CalculateTotalAmount bc))).isFinite = true ∧
    (Float32.sum (l.map (CalculateTotalAmount bc))).toScaled = 0 ∧
    exactSum (l.map (CalculateTotalAmount bc)) = 0 := by
  have hnd : l.Nodup := hl.nodup_iff.mpr (List.nodup_dedup _)
  have hall : ∀ t ∈ committed bc.chain, t.senderAddress ∈ l ∧ t.recipientAddress ∈ l := by
    intro t ht
    have := mem_mentioned _ t ht
    exact ⟨hl.mem_iff.mpr (List.mem_dedup.mpr this.1), hl.mem_iff.mpr (List.mem_dedup.mpr this.2)⟩
  exact conservation_exact bc l j hj hnd hall hgrid hb

/-- C12 on a chain without reward that moves 5.0 from "A" to "B" and three times 1.0
from "C" to "B": whole amounts, `j = 149`. -/
theorem balance_conservation_witness :
    (Float32.sum ((addresses (committed smallLedger.chain)).map
      (CalculateTotalAmount smallLedger))).isFinite = true ∧
    (Float32.sum ((addresses (committed smallLedger.chain)).map
      (CalculateTotalAmount smallLedger))).toScaled = 0 ∧
    exactSum ((addresses (committed smallLedger.chain)).map
      (CalculateTotalAmount smallLedger)) = 0 :=
  balance_conservation smallLedger (addresses (committed smallLedger.chain)) 149
    (List.Perm.refl _) (by decide) (by decide) (by decide)

/-- C12 as stated fails. The chain of `driftLedger` holds no reward transaction, its
addresses are "A", "B" and "C" with the totals -16777216.0, 16777216.0 and -3.0 (the
three credits of 1.0 to "B" are lost in rounding), and in every order the `float32`
sum of the three totals is not zero; their exact sum is -3. -/
theorem balance_conservation_counterexample :
    (∀ t ∈ committed driftLedger.chain, t.senderAddress ≠ ascii "THE BLOCKCHAIN") ∧
    (addresses (committed driftLedger.chain)).Perm [ascii "A", ascii "B", ascii "C"] ∧
    CalculateTotalAmount driftLedger (ascii "A") = ⟨0xCB800000⟩ ∧
    CalculateTotalAmount driftLedger (ascii "B") = ⟨0x4B800000⟩ ∧
    CalculateTotalAmount driftLedger (ascii "C") = ⟨0xC0400000⟩ ∧
    (∀ l : List Bytes, l.Perm (addresses (committed driftLedger.chain)) →
      (Float32.sum (l.map (CalculateTotalAmount driftLedger))).toScaled ≠ 0) ∧
    exactSum ((addresses (committed driftLedger.chain)).map
      (CalculateTotalAmount driftLedger)) = -3 * 2 ^ 149 := by
  refine ⟨by decide, by decide, by decide, by decide, by decide, ?_, by decide⟩
  intro l hl
  have hall : ∀ l ∈ (addresses (committed driftLedger.chain)).permutations',
      (Float32.sum (l.map (CalculateTotalAmount driftLedger))).toScaled ≠ 0 := by decide
  exact hall l (List.mem_permutations'.mpr hl)

end GoBlockchain
